import Mathlib

/-!
Verification of the gemini-scheduler allocation engine
(`src/services/scheduleEngine.ts`) against its natural-language
specification.

Shallow-embedding conventions:
* JavaScript numbers are modelled as `ℚ` (hours, percentages, budgets,
  scores) or `ℤ` (week offsets and durations, which the engine treats as
  integers).
* Dates are modelled as proleptic-Gregorian Rata-Die day numbers (`ℤ`,
  day 1 = 0001-01-01, a Monday); the ISO strings produced by
  `Date.toISOString` are in bijection with these day numbers.
* JavaScript `Record`s are modelled as association lists preserving
  insertion order; `Set`s as lists with membership.
* `Math.random()` draws are modelled by an explicit oracle
  `rand : ℕ → ℕ × ℕ` supplying the two draws of each optimizer
  iteration; the value is reduced with `%` to the required range.
* The engine's types (`types.ts`) are not part of the provided sources;
  the record shapes below follow the spec's §3 data model and the
  engine's field usage (see the doc comments that start
  `Modelled from the spec:`).
-/

/-- `Math.round` of JavaScript: round to nearest, ties toward +∞
(`Rat.floor` keeps the definition kernel-computable). -/
def jsRound (q : ℚ) : ℤ := (q + 1 / 2).floor

/-- `jsRound` is the floor of `q + 1/2`. -/
theorem jsRound_eq_floor (q : ℚ) : jsRound q = ⌊q + 1 / 2⌋ := by
  rw [jsRound, Rat.floor_def', ← Rat.floor_def]

/-- The spec's canonical rounding (§4.1), `ℤ`-valued: round to the nearest
multiple of 4; a strictly positive value that rounds to 0 is promoted
to 4. -/
def canonRoundInt (r : ℚ) : ℤ :=
  let b := jsRound (r / 4) * 4
  if b = 0 ∧ 0 < r then 4 else b

/-- Lines 38–39 of `scheduleEngine.ts` (`calculateWeeklyAggregates`):
`let baseWeekly = Math.round(rawWeekly / 4) * 4;`
`if (baseWeekly === 0 && rawWeekly > 0) baseWeekly = 4;` -/
def aggBaseWeekly (rawWeekly : ℚ) : ℚ :=
  let baseWeekly : ℤ := jsRound (rawWeekly / 4) * 4
  if baseWeekly = 0 ∧ 0 < rawWeekly then 4 else (baseWeekly : ℚ)

/-- Lines 440–441 of `scheduleEngine.ts` (`generateSchedule` cell
materialisation): `let baseWeekly = Math.round(rawPerPerson / 4) * 4;`
`if (baseWeekly === 0 && rawPerPerson > 0) baseWeekly = 4;` -/
def genBaseWeekly (rawPerPerson : ℚ) : ℚ :=
  let baseWeekly : ℤ := jsRound (rawPerPerson / 4) * 4
  if baseWeekly = 0 ∧ 0 < rawPerPerson then 4 else (baseWeekly : ℚ)

/-- JavaScript `parseInt` restricted to the strings this engine feeds it
(the second `split('-')` component of an override key): leading decimal
digits, `none` for `NaN`. -/
def parseIntJs (s : String) : Option ℤ :=
  let ds := s.toList.takeWhile Char.isDigit
  if ds.isEmpty then none
  else some (ds.foldl (fun acc c => acc * 10 + ((c.toNat : ℤ) - 48)) 0)

/-- Concatenation of the lists produced for each element, in order
(the row-accumulation pattern of nested `forEach` + `push`). -/
def listFlat : List α → (α → List β) → List β
  | [], _ => []
  | a :: as, f => f a ++ listFlat as f

/-- Replace the element at an index (JavaScript `arr[i] = f(arr[i])`);
out-of-range indices leave the list unchanged. -/
def modifyIdx (f : α → α) : ℕ → List α → List α
  | _, [] => []
  | 0, x :: xs => f x :: xs
  | n + 1, x :: xs => x :: modifyIdx f n xs

/-- Apply `f` to the first element satisfying `p` (JavaScript
`find` + in-place mutation of the found object). -/
def mapFirst (p : α → Bool) (f : α → α) : List α → List α
  | [] => []
  | x :: xs => if p x then f x :: xs else x :: mapFirst p f xs

/-- Association-list read (`record[k]`, `undefined` as `none`). -/
def lookupA (l : List (String × α)) (k : String) : Option α :=
  (l.find? (fun e => e.1 == k)).map (·.2)

/-- Association-list read with integer keys (date-keyed records). -/
def lookupD (l : List (ℤ × α)) (k : ℤ) : Option α :=
  (l.find? (fun e => e.1 == k)).map (·.2)

/-- Association-list write (`record[k] = v`): overwrite the first entry
with this key, else append. -/
def setA (k : String) (v : α) : List (String × α) → List (String × α)
  | [] => [(k, v)]
  | e :: es => if e.1 == k then (k, v) :: es else e :: setA k v es

/-- Update the value of the first entry with key `k` (the key is known to
be present when the engine does this). -/
def modEntry (k : String) (f : α → α) : List (String × α) → List (String × α)
  | [] => []
  | e :: es => if e.1 == k then (e.1, f e.2) :: es else e :: modEntry k f es

/-- `if (!record[k]) record[k] = v` for a freshly created 53-week array. -/
def ensureEntry (k : String) (v : α) (l : List (String × α)) : List (String × α) :=
  if (lookupA l k).isSome then l else l ++ [(k, v)]

/-! ### Calendar (date-fns `startOfYear`, `startOfWeek`, `addWeeks`) -/

/-- Rata-Die day number of January 1 of a (positive) year. -/
def jan1RD (y : ℤ) : ℤ :=
  1 + 365 * (y - 1) + (y - 1) / 4 - (y - 1) / 100 + (y - 1) / 400

/-- `startOfWeek(d, { weekStartsOn: 1 })`: the Monday on or before `d`
(Rata-Die day 1 is a Monday). -/
def startOfWeekMon (d : ℤ) : ℤ := d - (d - 1) % 7

/-- The header loop of `generateSchedule`: up to 53 consecutive Mondays,
stopping at the first date whose year exceeds the configured year
(equivalently, on or after January 1 of the following year). -/
def headersLoop (m bound : ℤ) : ℕ → ℕ → List ℤ
  | 0, _ => []
  | n + 1, i =>
    let d := m + 7 * (i : ℤ)
    if bound ≤ d then [] else d :: headersLoop m bound n (i + 1)

/-- Timeline construction of `generateSchedule` (step 1): first Monday on
or after January 1 of the year, then consecutive Mondays within the
year, capped at 53. -/
def mkHeaders (y : ℤ) : List ℤ :=
  let s := startOfWeekMon (jan1RD y)
  let m := if s < jan1RD y then s + 7 else s
  headersLoop m (jan1RD (y + 1)) 53 0

/-! ### Data model

Modelled from the spec: the engine's `types.ts` is not among the provided
sources; the shapes below follow spec §3 (StaffType with role label,
capacity, team and a skill→level map; ProjectInput with team,
requiredSkills and the two override maps) and the engine's field
accesses. Fields the engine reads through `||`/`?.` fallbacks are
modelled as always-present values whose JavaScript-falsy default
(`""`, `[]`) triggers the same fallback. -/

structure StaffPhaseConfig where
  staffTypeId : String
  percentage : ℚ
deriving DecidableEq, Repr

structure PhaseConfig where
  name : String
  percentBudget : ℚ
  minWeeks : ℤ
  maxWeeks : ℤ
  staffAllocation : List StaffPhaseConfig
deriving DecidableEq, Repr

/-- Modelled from the spec: staff type with role label, capacity, team
and skill map (§3); `skills` is an association list skill → level
(`"Beginner" | "Intermediate" | "Advanced"`). -/
structure StaffType where
  id : String
  name : String
  role : String
  maxHoursPerWeek : ℚ
  team : String
  skills : List (String × String)
deriving DecidableEq, Repr

/-- Modelled from the spec: the two override maps of §3, keyed by ISO
date (here: Rata-Die day) and by the composite string
`"staffTypeId-splitIndex"`. -/
structure ProjectOverrides where
  phase : List (ℤ × String)
  staff : List (String × List (ℤ × ℚ))
deriving DecidableEq, Repr

/-- Modelled from the spec: §3 ProjectInput; `phasesConfig` is the frozen
per-project snapshot and is always present (as `types.ts` declares). -/
structure ProjectInput where
  id : String
  name : String
  budgetHours : ℚ
  startWeekOffset : ℤ
  locked : Bool
  team : String
  requiredSkills : List String
  phasesConfig : List PhaseConfig
  overrides : ProjectOverrides
deriving DecidableEq, Repr

structure GlobalConfig where
  year : ℤ
  phases : List PhaseConfig
  staffTypes : List StaffType
deriving DecidableEq, Repr

structure ScheduleCell where
  date : ℤ
  hours : ℚ
  phase : Option String
  isOverride : Bool
deriving DecidableEq, Repr

structure ScheduleRow where
  rowId : String
  projectId : String
  staffTypeId : String
  projectName : String
  staffTypeName : String
  staffRole : String
  staffIndex : ℕ
  cells : List ScheduleCell
  totalHours : ℚ
deriving DecidableEq, Repr

structure ScheduleData where
  headers : List ℤ
  rows : List ScheduleRow
deriving DecidableEq, Repr

/-! ### WeeklyAggregator (`calculateWeeklyAggregates`, lines 17–53) -/

/-- The per-staff weekly load table: staffTypeId → 53 weekly hour sums,
as an insertion-ordered association list. -/
abbrev Loads := List (String × List ℚ)

/-- The inner week loop (lines 41–47): add `baseWeekly` for `n` weeks
starting at (integer) week index `weekIdx`; only indices in `[0, 53)` are
written, the rest are silently dropped. -/
def addWeeks53 (id : String) (v : ℚ) : ℕ → ℤ → Loads → Loads
  | 0, _, st => st
  | n + 1, weekIdx, st =>
    let st' :=
      if 0 ≤ weekIdx ∧ weekIdx < 53 then
        modEntry id (modifyIdx (· + v) weekIdx.toNat)
          (ensureEntry id (List.replicate 53 (0 : ℚ)) st)
      else st
    addWeeks53 id v n (weekIdx + 1) st'

/-- One `staffAllocation` entry of one phase (lines 33–48). -/
def aggAlloc (phaseTotalHours : ℚ) (duration : ℤ) (cursor : ℤ) (st : Loads)
    (sa : StaffPhaseConfig) : Loads :=
  let staffHoursTotal := phaseTotalHours * sa.percentage / 100
  if staffHoursTotal ≤ 0 then st
  else
    let rawWeekly := staffHoursTotal / (duration : ℚ)
    addWeeks53 sa.staffTypeId (aggBaseWeekly rawWeekly) duration.toNat cursor st

/-- The phase walk of one project (lines 23–50); a non-positive duration
skips the phase without advancing the cursor (the early `return` fires
before `currentWeekIndex += duration`). -/
def aggPhases (budgetHours : ℚ) : List PhaseConfig → ℤ → Loads → Loads
  | [], _, st => st
  | ph :: phs, cursor, st =>
    let phaseTotalHours := budgetHours * ph.percentBudget / 100
    let duration := ph.maxWeeks
    if duration ≤ 0 then aggPhases budgetHours phs cursor st
    else
      let st' := ph.staffAllocation.foldl (aggAlloc phaseTotalHours duration cursor) st
      aggPhases budgetHours phs (cursor + duration) st'

/-- One project's contribution (lines 23–51); `project.phasesConfig` is
always present, so the `|| config.phases` fallback is dead. -/
def aggProject (st : Loads) (project : ProjectInput) : Loads :=
  aggPhases project.budgetHours project.phasesConfig project.startWeekOffset st

/-- `calculateWeeklyAggregates` (lines 17–53): initialise a 53-zero row
per configured staff type, then accumulate every project. -/
def calculateWeeklyAggregates (projects : List ProjectInput) (config : GlobalConfig) : Loads :=
  let init := config.staffTypes.foldl (fun acc st => setA st.id (List.replicate 53 (0 : ℚ)) acc) []
  projects.foldl aggProject init

/-! ### TimingOptimizer cost (`getCost`, lines 220–241) -/

/-- `totalWeeklyLoad[idx] += hours` over one staff row: indices of the
accumulator only (`totalWeeklyLoad[idx] !== undefined` guard). -/
def addInto : List ℚ → List ℚ → List ℚ
  | [], _ => []
  | a :: as, [] => a :: addInto as []
  | a :: as, w :: ws => (a + w) :: addInto as ws

/-- `getCost` (lines 220–241): sum all staff rows into an
organization-wide 53-week total, then sum the squares of the weekly
totals. -/
def getCost (projs : List ProjectInput) (config : GlobalConfig) : ℚ :=
  let loads := calculateWeeklyAggregates projs config
  let totalWeeklyLoad := loads.foldl (fun acc e => addInto acc e.2) (List.replicate 53 (0 : ℚ))
  totalWeeklyLoad.foldl (fun cost hours => cost + hours * hours) 0

/-- Modelled from the spec: the reference cost of §4.3/§8 — the sum over
staff types and weeks of the squared weekly hours, the weekly hours
being the §4.1 aggregates of that staff type. -/
def specRefCost (projs : List ProjectInput) (config : GlobalConfig) : ℚ :=
  let loads := calculateWeeklyAggregates projs config
  (config.staffTypes.map (fun st =>
    (((lookupA loads st.id).getD (List.replicate 53 (0 : ℚ))).map (fun h => h * h)).sum)).sum

/-- The organization-wide weekly total that `getCost` squares: the week-`i`
entries of all rows of the aggregate table, summed. -/
def orgWeekTotal (projs : List ProjectInput) (config : GlobalConfig) (i : ℕ) : ℚ :=
  ((calculateWeeklyAggregates projs config).map (fun e => e.2.getD i 0)).sum

/-! ### TimingOptimizer (`optimizeProjectTiming`, lines 212–289) -/

/-- `getProjectDuration` (lines 246–249): sum of `maxWeeks` over the
project's phases (`phasesConfig` always present). -/
def projDuration (p : ProjectInput) : ℤ :=
  p.phasesConfig.foldl (fun sum ph => sum + ph.maxWeeks) 0

/-- `projectConstraints` (lines 251–255): per project,
`maxStart = Math.max(0, 52 - duration)`. -/
def constraintsOf (ps : List ProjectInput) : List ℤ :=
  ps.map (fun p => max 0 (52 - projDuration p))

/-- `unlockedIndices` (line 257). -/
def unlockedGo : ℕ → List ProjectInput → List ℕ
  | _, [] => []
  | i, p :: ps => if p.locked then unlockedGo (i + 1) ps else i :: unlockedGo (i + 1) ps

def unlockedOf (ps : List ProjectInput) : List ℕ := unlockedGo 0 ps

/-- Optimizer loop state: the working project list and the best cost seen
(`bestProjects`, `bestCost`). -/
structure OptState where
  projects : List ProjectInput
  bestCost : ℚ
deriving DecidableEq

/-- One iteration of the hill-climbing loop (lines 261–277). The two
`Math.random()` draws are supplied as `r`: the project pick
`r.1 % |unlocked|`, the offset pick `r.2 % (maxStart + 1)`. -/
def optStep (config : GlobalConfig) (cs : List ℤ) (ul : List ℕ) (r : ℕ × ℕ)
    (s : OptState) : OptState :=
  let idx := ul.getD (r.1 % ul.length) 0
  match s.projects.get? idx with
  | none => s
  | some p =>
    let originalOffset := p.startWeekOffset
    let maxStart := cs.getD idx 0
    let newOffset : ℤ := ((r.2 % (maxStart.toNat + 1) : ℕ) : ℤ)
    if newOffset = originalOffset then s
    else
      let projs2 := s.projects.set idx { p with startWeekOffset := newOffset }
      let newCost := getCost projs2 config
      if newCost < s.bestCost then ⟨projs2, newCost⟩ else s

/-- The fixed-budget iteration driver (`for i in 0..4999`), iteration
index threaded to the random oracle. -/
def optLoop (step : ℕ → OptState → OptState) : ℕ → ℕ → OptState → OptState
  | 0, _, s => s
  | n + 1, i, s => optLoop step n (i + 1) (step i s)

/-- The defensive clamp pass (lines 279–287): any unlocked project whose
offset exceeds its `maxStart` is pulled back to `maxStart`. -/
def clampGo (cs : List ℤ) : ℕ → List ProjectInput → List ProjectInput
  | _, [] => []
  | idx, p :: ps =>
    (if p.locked = false ∧ cs.getD idx 0 < p.startWeekOffset then
      { p with startWeekOffset := cs.getD idx 0 }
    else p) :: clampGo cs (idx + 1) ps

def initState (ps : List ProjectInput) (config : GlobalConfig) : OptState :=
  ⟨ps, getCost ps config⟩

/-- `optimizeProjectTiming` (lines 212–289) with the random draws made
explicit: 5000 greedy iterations, then the clamp pass; if no project is
unlocked the input is returned unchanged. -/
def optimizeProjectTiming (rand : ℕ → ℕ × ℕ) (currentProjects : List ProjectInput)
    (config : GlobalConfig) : List ProjectInput :=
  if unlockedOf currentProjects = [] then currentProjects
  else
    clampGo (constraintsOf currentProjects) 0
      (optLoop
        (fun i s => optStep config (constraintsOf currentProjects)
          (unlockedOf currentProjects) (rand i) s)
        5000 0 (initState currentProjects config)).projects

/-! ### PlaceholderAssigner (`assignStaffToPlaceholders`, lines 58–207) -/

/-- A placeholder slot to fill (the `FillTask` interface, lines 66–76). -/
structure FillTask where
  projectId : String
  projectName : String
  phaseIndex : ℕ
  allocIndex : ℕ
  startWeek : ℤ
  duration : ℤ
  hoursPerWeek : ℚ
  requiredSkills : List String
  team : String
deriving DecidableEq, Repr

/-- FillTask collection over one phase's `staffAllocation` (lines 89–109).
The per-task rounding (lines 94–95) promotes on `staffHoursTotal > 0`,
unlike lines 38–39 which promote on `rawWeekly > 0`. -/
def allocGo (p : ProjectInput) (phaseTotalHours : ℚ) (duration : ℤ) (pIdx : ℕ)
    (currentWeek : ℤ) : List StaffPhaseConfig → ℕ → List FillTask
  | [], _ => []
  | sa :: sas, aIdx =>
    let rest := allocGo p phaseTotalHours duration pIdx currentWeek sas (aIdx + 1)
    if sa.staffTypeId = "placeholder" ∧ 0 < sa.percentage then
      let staffHoursTotal := phaseTotalHours * sa.percentage / 100
      let hpwRounded : ℤ := jsRound (staffHoursTotal / (duration : ℚ) / 4) * 4
      let hoursPerWeek : ℚ :=
        if hpwRounded = 0 ∧ 0 < staffHoursTotal then 4 else (hpwRounded : ℚ)
      { projectId := p.id, projectName := p.name, phaseIndex := pIdx,
        allocIndex := aIdx, startWeek := currentWeek, duration := duration,
        hoursPerWeek := hoursPerWeek, requiredSkills := p.requiredSkills,
        team := if p.team = "" then "General" else p.team } :: rest
    else rest

/-- The phase walk of the task collection (lines 80–113); here the cursor
advances by `duration` even for non-positive durations (the
`currentWeek += duration` sits outside the `duration > 0` guard). -/
def collectGo (p : ProjectInput) : List PhaseConfig → ℕ → ℤ → List FillTask
  | [], _, _ => []
  | ph :: phs, pIdx, currentWeek =>
    let phaseTotalHours := p.budgetHours * ph.percentBudget / 100
    let duration := ph.maxWeeks
    (if 0 < duration then
      allocGo p phaseTotalHours duration pIdx currentWeek ph.staffAllocation 0
    else []) ++ collectGo p phs (pIdx + 1) (currentWeek + duration)

def collectTasks (projects : List ProjectInput) : List FillTask :=
  listFlat projects (fun p => collectGo p p.phasesConfig 0 p.startWeekOffset)

/-- Total effort of a task, the sort key of line 116. -/
def taskEffort (t : FillTask) : ℚ := t.hoursPerWeek * (t.duration : ℚ)

/-- Stable insertion for the descending-effort sort: the task is placed
after every already-placed task of equal or larger effort and before the
first of strictly smaller effort. -/
def insertTask (t : FillTask) : List FillTask → List FillTask
  | [] => [t]
  | x :: xs => if taskEffort x < taskEffort t then t :: x :: xs else x :: insertTask t xs

/-- Line 116: `tasks.sort((a, b) => (b.hpw * b.dur) - (a.hpw * a.dur))` —
ES2019 `Array.prototype.sort` is stable, so the result is the unique
stable descending order by total effort; realised as a stable insertion
sort: tasks are taken in input order and each is inserted after all
earlier tasks of equal or larger effort, which keeps ties in input
order. -/
def sortTasks (l : List FillTask) : List FillTask :=
  l.foldl (fun sorted t => insertTask t sorted) []

/-- Non-placeholder ids currently staffed on a project (the
`assignedStaff` set of lines 122–129). -/
def assignedIds (p : ProjectInput) : List String :=
  (listFlat p.phasesConfig (fun ph => ph.staffAllocation.map (·.staffTypeId))).filter
    (fun x => x ≠ "placeholder")

/-- `weeklyLoads[id]?.[weekIdx] || 0` (line 162): absent rows, absent
indices — including the negative-index property reads — give 0. -/
def loadAt (loads : Loads) (id : String) (weekIdx : ℤ) : ℚ :=
  if 0 ≤ weekIdx then ((lookupA loads id).getD []).getD weekIdx.toNat 0 else 0

/-- The overtime/utilization accumulation of lines 159–173: weeks are
scanned for `weekIdx < 53` (negative indices included, reading load 0). -/
def overtimeGo (loads : Loads) (cand : StaffType) (hoursPerWeek : ℚ) :
    ℤ → ℕ → ℚ × ℚ → ℚ × ℚ
  | _, 0, acc => acc
  | weekIdx, n + 1, (pen, util) =>
    let acc :=
      if weekIdx < 53 then
        let currentLoad := loadAt loads cand.id weekIdx
        let newLoad := currentLoad + hoursPerWeek
        if cand.maxHoursPerWeek < newLoad then
          (pen + (newLoad - cand.maxHoursPerWeek) ^ 2, util)
        else (pen, util + hoursPerWeek)
      else (pen, util)
    overtimeGo loads cand hoursPerWeek (weekIdx + 1) n acc

/-- Candidate scoring (lines 139–176): team bonus, skill bonuses,
−10·overtimePenalty, +1·utilizationReward. -/
def scoreCand (task : FillTask) (loads : Loads) (cand : StaffType) : ℚ :=
  let teamBonus : ℚ := if cand.team = task.team then 50 else 0
  let skillBonus : ℚ :=
    if task.requiredSkills ≠ [] then
      (task.requiredSkills.map (fun sk =>
        match lookupA cand.skills sk with
        | some level =>
          if level = "Beginner" then (10 : ℚ)
          else if level = "Intermediate" then 20
          else if level = "Advanced" then 30
          else 0
        | none => 0)).sum
    else 0
  let (pen, util) := overtimeGo loads cand task.hoursPerWeek task.startWeek task.duration.toNat (0, 0)
  teamBonus + skillBonus - pen * 10 + util * 1

/-- First-seen-wins argmax of lines 136–182 (`bestScore` starts at
`-Infinity`, updates on strict improvement). -/
def pickBest (score : StaffType → ℚ) (cands : List StaffType) : Option StaffType :=
  (cands.foldl (fun best cand =>
    match best with
    | none => some (cand, score cand)
    | some (b, bs) => if bs < score cand then some (cand, score cand) else some (b, bs))
    none).map (·.1)

/-- Candidate set of lines 131–134: all configured staff except the
placeholder sentinel and those already staffed on the task's project
(the project found first by id; if none is found the exclusion set is
empty). -/
def candidatesOf (config : GlobalConfig) (projs : List ProjectInput) (task : FillTask) :
    List StaffType :=
  let assigned := match projs.find? (fun p => p.id == task.projectId) with
    | some project => assignedIds project
    | none => []
  config.staffTypes.filter (fun s => s.id ≠ "placeholder" ∧ s.id ∉ assigned)

/-- One phase with the allocation slot `aIdx` bound to `candId`. -/
def bindAlloc (candId : String) (aIdx : ℕ) (ph : PhaseConfig) : PhaseConfig :=
  { ph with staffAllocation :=
      modifyIdx (fun sa => { sa with staffTypeId := candId }) aIdx ph.staffAllocation }

/-- Write the chosen candidate id into the task's slot (line 190). The
source's write is unguarded: when the indices do not address an existing
slot of `q` (reachable when two projects share an id and `find` returns
a first project shorter than the task's origin) it throws a TypeError,
whereas `modifyIdx` leaves the list unchanged; `warnings_c8` therefore
scopes the binding behaviour with the in-range proviso `bindInRange`,
and `warnings_c8_counterexample` exhibits the throwing input. -/
def bindProject (pIdx aIdx : ℕ) (candId : String) (q : ProjectInput) : ProjectInput :=
  { q with phasesConfig := modifyIdx (bindAlloc candId aIdx) pIdx q.phasesConfig }

/-- The local-load update of lines 192–199: `if (weekIdx < 53)` ensures
the row and adds the task's weekly hours; a negative `weekIdx` writes an
unobservable `NaN` property in JavaScript (every later read coerces it
to 0), modelled as no write. -/
def addLoadGo (candId : String) (h : ℚ) : ℤ → ℕ → Loads → Loads
  | _, 0, l => l
  | weekIdx, n + 1, l =>
    let l' :=
      if weekIdx < 53 then
        let l1 := ensureEntry candId (List.replicate 53 (0 : ℚ)) l
        if 0 ≤ weekIdx then modEntry candId (modifyIdx (· + h) weekIdx.toNat) l1 else l1
      else l
    addLoadGo candId h (weekIdx + 1) n l'

def addTaskLoad (loads : Loads) (candId : String) (task : FillTask) : Loads :=
  addLoadGo candId task.hoursPerWeek task.startWeek task.duration.toNat loads

/-- Assigner working state: project list, running load table, warnings. -/
structure AState where
  projs : List ProjectInput
  loads : Loads
  warns : List String
deriving DecidableEq

/-- The binding branch of lines 186–200: mutate the found project's slot
and the running loads (`p && p.phasesConfig` holds whenever the find
succeeds, `phasesConfig` being always present). -/
def bindStep (s : AState) (task : FillTask) (cand : StaffType) : AState :=
  match s.projs.find? (fun p => p.id == task.projectId) with
  | some _ =>
    ⟨mapFirst (fun p => p.id == task.projectId) (bindProject task.phaseIndex task.allocIndex cand.id) s.projs,
     addTaskLoad s.loads cand.id task, s.warns⟩
  | none => s

/-- The per-task warning string of line 202. -/
def fillWarning (task : FillTask) : String :=
  "Could not fill placeholder for " ++ task.projectName ++ "."

/-- One iteration of the optimization loop of lines 119–204. -/
def processTask (config : GlobalConfig) (s : AState) (task : FillTask) : AState :=
  match pickBest (scoreCand task s.loads) (candidatesOf config s.projs task) with
  | some cand => bindStep s task cand
  | none => ⟨s.projs, s.loads, s.warns ++ [fillWarning task]⟩

/-- `assignStaffToPlaceholders` (lines 58–207); the
`JSON.parse(JSON.stringify(...))` deep copy is the identity on values. -/
def assignStaffToPlaceholders (projects : List ProjectInput) (config : GlobalConfig) :
    List ProjectInput × List String :=
  let s := (sortTasks (collectTasks projects)).foldl (processTask config)
    ⟨projects, calculateWeeklyAggregates projects config, []⟩
  (s.projs, s.warns)

/-- `optimizeSchedule` (lines 296–308): staff the placeholders, then
optimize timing on the staffed projects. -/
def optimizeSchedule (rand : ℕ → ℕ × ℕ) (projects : List ProjectInput)
    (config : GlobalConfig) : List ProjectInput × List String :=
  (optimizeProjectTiming rand (assignStaffToPlaceholders projects config).1 config,
   (assignStaffToPlaceholders projects config).2)

/-! ### ScheduleGenerator (`generateSchedule`, lines 313–475) -/

/-- Lines 343–354: per phase name, the unrounded weekly rate per staff
type; a later phase with the same name replaces the earlier entry, a
duplicate staff id within a phase overwrites. -/
def phaseProfilesOf (project : ProjectInput) : List (String × List (String × ℚ)) :=
  project.phasesConfig.foldl (fun acc ph =>
    let totalPhaseHours := project.budgetHours * ph.percentBudget / 100
    let duration : ℚ := (max 1 ph.maxWeeks : ℤ)
    let weeklyPhaseHours := totalPhaseHours / duration
    setA ph.name
      (ph.staffAllocation.foldl (fun inner sa =>
        setA sa.staffTypeId (weeklyPhaseHours * sa.percentage / 100) inner) [])
      acc) []

/-- Lines 341, 351–352: every staff id listed in some `staffAllocation`
entry — tracked even at percentage 0. -/
def allocatedIdsOf (project : ProjectInput) : List String :=
  listFlat project.phasesConfig (fun ph => ph.staffAllocation.map (·.staffTypeId))

/-- Line 359: `Math.max(0, Math.min(startWeekOffset, headers.length - 1))`. -/
def startCursorOf (project : ProjectInput) (headers : List ℤ) : ℕ :=
  (max 0 (min project.startWeekOffset ((headers.length : ℤ) - 1))).toNat

/-- Lines 362–367: one phase writes its name on up to `maxWeeks`
consecutive timeline weeks, the cursor advancing each step. -/
def writeWeeks (headers : List ℤ) (name : String) :
    ℕ → ℕ → (ℤ → Option String) → (ℤ → Option String) × ℕ
  | 0, cursor, acc => (acc, cursor)
  | n + 1, cursor, acc =>
    let acc' := match headers.get? cursor with
      | some d0 => fun d => if d = d0 then some name else acc d
      | none => acc
    writeWeeks headers name n (cursor + 1) acc'

/-- Lines 361–368: the natural phase-per-week walk. -/
def walkAll (headers : List ℤ) : List PhaseConfig → ℕ → (ℤ → Option String) → (ℤ → Option String)
  | [], _, acc => acc
  | ph :: phs, cursor, acc =>
    let r := writeWeeks headers ph.name ph.maxWeeks.toNat cursor acc
    walkAll headers phs r.2 r.1

/-- Lines 371–377: phase overrides force the effective phase of dates
that lie on the timeline. -/
def applyPhaseOverrides (headers : List ℤ) (entries : List (ℤ × String))
    (acc : ℤ → Option String) : ℤ → Option String :=
  entries.foldl (fun acc e =>
    if e.1 ∈ headers then fun d => if d = e.1 then some e.2 else acc d else acc) acc

/-- The effective phase of each timeline week (lines 356–377). -/
def weeklyPhasesOf (headers : List ℤ) (project : ProjectInput) : ℤ → Option String :=
  applyPhaseOverrides headers project.overrides.phase
    (walkAll headers project.phasesConfig (startCursorOf project headers) (fun _ => none))

/-- Lines 388–396: the highest split index found by parsing every hour
override key as `key.split('-')`, reading component 0 as the staff id
and component 1 as the index — a parse that mis-handles staff ids that
themselves contain `-`. -/
def computeMaxOverrideIndex (entries : List (String × List (ℤ × ℚ))) (sid : String) : ℤ :=
  entries.foldl (fun cur e =>
    let parts := e.1.splitOn "-"
    let sId := parts.headD ""
    if sId = sid then
      match (parts.get? 1).bind parseIntJs with
      | some idx => if cur < idx then idx else cur
      | none => cur
    else cur) 0

/-- Lines 399–405: the maximal computed weekly rate of this staff type
over the effective phases of the timeline. -/
def computeMaxLoad (headers : List ℤ) (weekPhase : ℤ → Option String)
    (profiles : List (String × List (String × ℚ))) (sid : String) : ℚ :=
  headers.foldl (fun cur d =>
    match weekPhase d with
    | some pn =>
      match lookupA profiles pn with
      | some inner =>
        let hours := (lookupA inner sid).getD 0
        if cur < hours then hours else cur
      | none => cur
    | none => cur) 0

/-- The hour override for one row key at one date
(`project.overrides?.staff?.[staffKey]?.[date]`, line 430). -/
def staffOverrideAt (project : ProjectInput) (staffKey : String) (d : ℤ) : Option ℚ :=
  (lookupA project.overrides.staff staffKey).bind (fun m => lookupD m d)

/-- Cell value and override flag for one week (lines 424–444). When the
effective phase has no profile entry the source throws a TypeError on
the unguarded `phaseProfiles[phaseName][staff.id]` read of line 436
(reachable only through a phase override naming a phase absent from the
project's `phasesConfig` snapshot); that branch is modelled as rate 0,
and every property quantifying over projects with phase overrides
excludes it by hypothesis — `row_emission_c3_amended` additionally
proves the branch unreachable under its proviso. -/
def cellCalc (project : ProjectInput) (profiles : List (String × List (String × ℚ)))
    (weekPhase : ℤ → Option String) (sid : String) (staffKey : String) (numSplits : ℕ)
    (d : ℤ) : ℚ × Bool :=
  match staffOverrideAt project staffKey d with
  | some v => (v, true)
  | none =>
    match weekPhase d with
    | some pn =>
      let rawTotalForType := ((lookupA profiles pn).map (fun inner => (lookupA inner sid).getD 0)).getD 0
      if 0 < rawTotalForType then (genBaseWeekly (rawTotalForType / (numSplits : ℚ)), false)
      else (0, false)
    | none => (0, false)

/-- Lines 446–453: a cell is materialised only when it has positive hours
or is an override; otherwise it stays `{date, 0, null}`. -/
def mkCell (weekPhase : ℤ → Option String) (d : ℤ) (hv : ℚ × Bool) : ScheduleCell :=
  if 0 < hv.1 ∨ hv.2 = true then ⟨d, hv.1, weekPhase d, hv.2⟩ else ⟨d, 0, none, false⟩

/-- One split row (lines 416–469 loop body). -/
def mkRow (headers : List ℤ) (project : ProjectInput)
    (profiles : List (String × List (String × ℚ))) (weekPhase : ℤ → Option String)
    (staff : StaffType) (numSplits : ℕ) (i : ℕ) : ScheduleRow :=
  let staffKey := staff.id ++ "-" ++ toString (i + 1)
  let hvs := headers.map (fun d => cellCalc project profiles weekPhase staff.id staffKey numSplits d)
  let cells := (headers.zip hvs).map (fun p => mkCell weekPhase p.1 p.2)
  let total := (hvs.map (fun hv => if 0 < hv.1 ∨ hv.2 = true then hv.1 else 0)).sum
  { rowId := project.id ++ "-" ++ staff.id ++ "-" ++ toString i,
    projectId := project.id, staffTypeId := staff.id,
    projectName := project.name, staffTypeName := staff.name,
    staffRole := if staff.role = "" then "Auditor" else staff.role,
    staffIndex := i + 1, cells := cells, totalHours := total }

/-- Whether the split row `i` (0-based) has any materialised cell. -/
def rowHasAnyHours (headers : List ℤ) (project : ProjectInput)
    (profiles : List (String × List (String × ℚ))) (weekPhase : ℤ → Option String)
    (staff : StaffType) (numSplits : ℕ) (i : ℕ) : Bool :=
  headers.any (fun d =>
    let hv := cellCalc project profiles weekPhase staff.id
      (staff.id ++ "-" ++ toString (i + 1)) numSplits d
    decide (0 < hv.1 ∨ hv.2 = true))

/-- Lines 407–414: the split count is `max(1, maxOverrideIndex)`, zeroed
when there is no computed load, no override index and no explicit
allocation. -/
def numSplitsOf (headers : List ℤ) (project : ProjectInput) (staff : StaffType) : ℕ :=
  if computeMaxLoad headers (weeklyPhasesOf headers project) (phaseProfilesOf project) staff.id = 0
      ∧ computeMaxOverrideIndex project.overrides.staff staff.id = 0
      ∧ ¬(staff.id ∈ allocatedIdsOf project) then 0
  else (max 1 (computeMaxOverrideIndex project.overrides.staff staff.id)).toNat

/-- Line 457: a split row is emitted when it has content, its index is
override-referenced, or the staff type is explicitly allocated and it is
split 1. -/
def emitRow? (headers : List ℤ) (project : ProjectInput) (staff : StaffType)
    (numSplits : ℕ) (i : ℕ) : Option ScheduleRow :=
  if rowHasAnyHours headers project (phaseProfilesOf project) (weeklyPhasesOf headers project)
        staff numSplits i = true
      ∨ ((i : ℤ) + 1 ≤ computeMaxOverrideIndex project.overrides.staff staff.id)
      ∨ (staff.id ∈ allocatedIdsOf project ∧ i = 0) then
    some (mkRow headers project (phaseProfilesOf project) (weeklyPhasesOf headers project)
      staff numSplits i)
  else none

/-- Rows of one staff type for one project (lines 380–471). -/
def rowsForStaff (headers : List ℤ) (project : ProjectInput) (staff : StaffType) :
    List ScheduleRow :=
  (List.range (numSplitsOf headers project staff)).filterMap
    (emitRow? headers project staff (numSplitsOf headers project staff))

/-- `generateSchedule` (lines 313–475). -/
def generateSchedule (projects : List ProjectInput) (config : GlobalConfig) : ScheduleData :=
  let headers := mkHeaders config.year
  ⟨headers, listFlat projects (fun project =>
    listFlat config.staffTypes (fun staff => rowsForStaff headers project staff))⟩

/-! ### Concrete instances used by witnesses and counterexamples -/

/-- A one-person configuration (year 2026). -/
def cfgOne : GlobalConfig :=
  { year := 2026, phases := [], staffTypes := [⟨"s", "S", "Auditor", 40, "General", []⟩] }

/-- Spec §8 Scenario B: one project, budget 400, a single 100% phase of
4 weeks whose only allocation gives `roleA` percentage 0. -/
def cfgScenB : GlobalConfig :=
  { year := 2026, phases := [],
    staffTypes := [⟨"roleA", "Role A", "Auditor", 40, "General", []⟩] }

def projScenB : ProjectInput :=
  { id := "p1", name := "Scenario B", budgetHours := 400, startWeekOffset := 0,
    locked := false, team := "General", requiredSkills := [],
    phasesConfig := [⟨"Fieldwork", 100, 1, 4, [⟨"roleA", 0⟩]⟩],
    overrides := ⟨[], []⟩ }

/-- Two staff types sharing one week's load (per-staff-type squares and
the organization-wide square differ here). -/
def cfgTwo : GlobalConfig :=
  { year := 2026, phases := [],
    staffTypes := [⟨"a", "A", "Auditor", 40, "General", []⟩,
                   ⟨"b", "B", "Auditor", 40, "General", []⟩] }

def projHalfHalf : ProjectInput :=
  { id := "p", name := "P", budgetHours := 200, startWeekOffset := 0, locked := false,
    team := "General", requiredSkills := [],
    phasesConfig := [⟨"Fieldwork", 100, 1, 1, [⟨"a", 50⟩, ⟨"b", 50⟩]⟩],
    overrides := ⟨[], []⟩ }

/-- A staff id containing a hyphen, exactly as the application creates
them (`role-${Date.now()}` in `TeamMemberList.tsx`), plus an hour
override at split 2 of that staff type on the second timeline Monday. -/
def cfgHyphen : GlobalConfig :=
  { year := 2026, phases := [],
    staffTypes := [⟨"role-7", "New Member", "Auditor", 40, "General", []⟩] }

def projHyphen : ProjectInput :=
  { id := "p7", name := "P7", budgetHours := 0, startWeekOffset := 0, locked := false,
    team := "General", requiredSkills := [],
    phasesConfig := [⟨"Fieldwork", 100, 1, 2, [⟨"role-7", 0⟩]⟩],
    overrides := ⟨[], [("role-7-2", [(739628, 8)])]⟩ }

/-- An unlocked project whose start offset (100) lies far beyond the
feasible range; all of its load falls outside the 53-week window. -/
def projFar : ProjectInput :=
  { id := "p1", name := "P1", budgetHours := 40, startWeekOffset := 100, locked := false,
    team := "General", requiredSkills := [],
    phasesConfig := [⟨"Fieldwork", 100, 1, 1, [⟨"s", 100⟩]⟩],
    overrides := ⟨[], []⟩ }

/-- An unlocked project of total duration 54 (> 53) starting at 0. -/
def projLong : ProjectInput :=
  { id := "q", name := "Q", budgetHours := 0, startWeekOffset := 0, locked := false,
    team := "General", requiredSkills := [],
    phasesConfig := [⟨"Fieldwork", 100, 54, 54, [⟨"s", 100⟩]⟩],
    overrides := ⟨[], []⟩ }

/-- A locked and an unlocked project competing for the same week. -/
def projLockedA : ProjectInput :=
  { id := "a", name := "A", budgetHours := 40, startWeekOffset := 0, locked := true,
    team := "General", requiredSkills := [],
    phasesConfig := [⟨"Fieldwork", 100, 1, 1, [⟨"s", 100⟩]⟩],
    overrides := ⟨[], []⟩ }

def projFreeB : ProjectInput :=
  { id := "b", name := "B", budgetHours := 40, startWeekOffset := 0, locked := false,
    team := "General", requiredSkills := [],
    phasesConfig := [⟨"Fieldwork", 100, 1, 1, [⟨"s", 100⟩]⟩],
    overrides := ⟨[], []⟩ }

def projPair : List ProjectInput := [projLockedA, projFreeB]

/-- A project whose input staffing already repeats one concrete id. -/
def projDupIn : ProjectInput :=
  { id := "d", name := "D", budgetHours := 100, startWeekOffset := 0, locked := false,
    team := "General", requiredSkills := [],
    phasesConfig := [⟨"Fieldwork", 100, 1, 2, [⟨"s", 50⟩, ⟨"s", 50⟩]⟩],
    overrides := ⟨[], []⟩ }

/-- Spec §8 Scenario C: two placeholder slots whose only possible
candidate already holds a role on the same project. -/
def cfgScenC : GlobalConfig :=
  { year := 2026, phases := [],
    staffTypes := [⟨"placeholder", "Placeholder", "Unassigned", 40, "General", []⟩,
                   ⟨"s", "S", "Auditor", 40, "General", []⟩] }

def projScenC : ProjectInput :=
  { id := "c", name := "C", budgetHours := 100, startWeekOffset := 0, locked := false,
    team := "General", requiredSkills := [],
    phasesConfig := [⟨"Fieldwork", 100, 1, 2,
      [⟨"s", 40⟩, ⟨"placeholder", 30⟩, ⟨"placeholder", 30⟩]⟩],
    overrides := ⟨[], []⟩ }

/-- The constant random oracle: every iteration proposes project pick 0
and offset draw 0. -/
def randZero : ℕ → ℕ × ℕ := fun _ => (0, 0)

/-- The random oracle proposing offset draw 1 each iteration. -/
def randOne : ℕ → ℕ × ℕ := fun _ => (0, 1)

/-- An unlocked project whose first phase spans 53 weeks (weekly rate 4)
while a degenerate second phase of `maxWeeks = -52` brings the total
duration down to 1; shifting it right pushes weeks past the 53-week
window and strictly lowers the cost. -/
def projClip : ProjectInput :=
  { id := "k", name := "K", budgetHours := 212, startWeekOffset := 0, locked := false,
    team := "General", requiredSkills := [],
    phasesConfig := [⟨"Fieldwork", 100, 53, 53, [⟨"s", 100⟩]⟩,
                     ⟨"Reporting", 0, 1, -52, []⟩],
    overrides := ⟨[], []⟩ }

/-! ### C1 — canonical rounding -/

/-- C1. Canonical rounding: for every strictly positive raw weekly rate
`r`, the canonically rounded value is a positive multiple of 4
(`canonRoundInt r % 4 = 0` and `0 < canonRoundInt r`), and both the
aggregator's inline rounding (lines 38–39) and the schedule generator's
cell rounding (lines 440–441) equal this canonical rule. -/
theorem canonical_rounding_c1 (r : ℚ) (h : 0 < r) :
    canonRoundInt r % 4 = 0 ∧ 0 < canonRoundInt r ∧
    aggBaseWeekly r = ((canonRoundInt r : ℤ) : ℚ) ∧
    genBaseWeekly r = ((canonRoundInt r : ℤ) : ℚ) := by
  have hk : 0 ≤ jsRound (r / 4) := by
    have h4 : (0 : ℚ) ≤ r / 4 + 1 / 2 := by positivity
    rw [jsRound_eq_floor]
    exact Int.le_floor.mpr (by exact_mod_cast h4)
  unfold canonRoundInt aggBaseWeekly genBaseWeekly
  set k := jsRound (r / 4) with hkdef
  refine ⟨?_, ?_, ?_, ?_⟩
  · by_cases hb : k * 4 = 0
    · simp [hb, h]
    · rw [if_neg (by tauto)]
      omega
  · by_cases hb : k * 4 = 0
    · simp [hb, h]
    · rw [if_neg (by tauto)]
      omega
  · show (if k * 4 = 0 ∧ 0 < r then (4 : ℚ) else ((k * 4 : ℤ) : ℚ)) =
      (((if k * 4 = 0 ∧ 0 < r then (4 : ℤ) else k * 4) : ℤ) : ℚ)
    split <;> norm_num
  · show (if k * 4 = 0 ∧ 0 < r then (4 : ℚ) else ((k * 4 : ℤ) : ℚ)) =
      (((if k * 4 = 0 ∧ 0 < r then (4 : ℤ) else k * 4) : ℤ) : ℚ)
    split <;> norm_num

/-- Witness for C1 at the concrete rate 2 (which rounds up to 4). -/
theorem canonical_rounding_c1_witness :
    (0 : ℚ) < 2 ∧ (canonRoundInt 2 % 4 = 0 ∧ 0 < canonRoundInt 2 ∧
      aggBaseWeekly 2 = ((canonRoundInt 2 : ℤ) : ℚ) ∧
      genBaseWeekly 2 = ((canonRoundInt 2 : ℤ) : ℚ)) :=
  ⟨by norm_num, canonical_rounding_c1 2 (by norm_num)⟩

/-! ### C2 — the TimingOptimizer cost function -/

set_option maxRecDepth 100000 in
/-- C2 counterexample. With two staff types each loaded 100 hours in week
0, `getCost` (which squares the organization-wide weekly total, lines
224–240) gives `200² = 40000`, while the spec's reference cost (per
staff type and week) gives `100² + 100² = 20000`. -/
theorem cost_formulation_c2_counterexample :
    getCost [projHalfHalf] cfgTwo ≠ specRefCost [projHalfHalf] cfgTwo := by
  with_unfolding_all decide

/-- Auxiliary: `addInto` preserves the accumulator length. -/
theorem addInto_length : ∀ (acc ws : List ℚ), (addInto acc ws).length = acc.length
  | [], _ => rfl
  | _ :: as, [] => by simp [addInto, addInto_length as []]
  | _ :: as, _ :: ws => by simp [addInto, addInto_length as ws]


/-- Auxiliary: entrywise reading of `addInto`. -/
theorem addInto_getD : ∀ (acc ws : List ℚ) (i : ℕ), i < acc.length →
    (addInto acc ws).getD i 0 = acc.getD i 0 + ws.getD i 0
  | [], _, i, h => by simp at h
  | a :: as, [], 0, _ => by simp [addInto]
  | a :: as, [], i + 1, h => by
    simpa [addInto] using addInto_getD as [] i (by simpa using h)
  | a :: as, w :: ws, 0, _ => by simp [addInto]
  | a :: as, w :: ws, i + 1, h => by
    simpa [addInto] using addInto_getD as ws i (by simpa using h)

/-- Auxiliary: entrywise reading of the fold of `addInto` over the rows
of the load table. -/
theorem foldl_addInto_getD (i : ℕ) :
    ∀ (es : Loads) (acc : List ℚ), i < acc.length →
      ((es.foldl (fun a e => addInto a e.2) acc).getD i 0) =
        acc.getD i 0 + (es.map (fun e => e.2.getD i 0)).sum
  | [], acc, _ => by simp
  | e :: es, acc, h => by
    have hlen : i < (addInto acc e.2).length := by rwa [addInto_length]
    simp only [List.foldl_cons, List.map_cons, List.sum_cons]
    rw [foldl_addInto_getD i es (addInto acc e.2) hlen, addInto_getD acc e.2 i h]
    ring

/-- Auxiliary: the fold of `addInto` preserves the 53-slot length. -/
theorem foldl_addInto_length : ∀ (es : Loads) (acc : List ℚ),
    (es.foldl (fun a e => addInto a e.2) acc).length = acc.length
  | [], _ => rfl
  | e :: es, acc => by
    simp only [List.foldl_cons]
    rw [foldl_addInto_length es (addInto acc e.2), addInto_length]

/-- Auxiliary: the square-accumulating fold is a sum of squares. -/
theorem foldl_sq_sum : ∀ (l : List ℚ) (c : ℚ),
    l.foldl (fun cost hours => cost + hours * hours) c = c + (l.map (fun h => h * h)).sum
  | [], c => by simp
  | h :: t, c => by
    simp only [List.foldl_cons, List.map_cons, List.sum_cons]
    rw [foldl_sq_sum t (c + h * h)]
    ring

/-- Auxiliary: a mapped list sum as a sum over positions. -/
theorem map_sum_eq_range (f : ℚ → ℚ) :
    ∀ l : List ℚ, (l.map f).sum = ∑ i ∈ Finset.range l.length, f (l.getD i 0)
  | [] => by simp
  | a :: t => by
    simp only [List.map_cons, List.sum_cons, List.length_cons]
    rw [map_sum_eq_range f t, Finset.sum_range_succ']
    simp [add_comm]

/-- Auxiliary: reading a replicated zero row. -/
theorem replicate_getD (n i : ℕ) : (List.replicate n (0 : ℚ)).getD i 0 = 0 := by
  induction n generalizing i with
  | zero => simp
  | succ m ih =>
    cases i with
    | zero => simp [List.replicate]
    | succ j => simp [List.replicate, ih j]

/-- C2 amended. The implemented cost is the organization-wide
formulation: `getCost` equals the sum over the 53 weeks of the square of
the total weekly hours across all rows of the §4.1 aggregate table. -/
theorem cost_formulation_c2_amended (projs : List ProjectInput) (config : GlobalConfig) :
    getCost projs config =
      ∑ i ∈ Finset.range 53, orgWeekTotal projs config i * orgWeekTotal projs config i := by
  unfold getCost orgWeekTotal
  set es := calculateWeeklyAggregates projs config with hes
  set total := es.foldl (fun a e => addInto a e.2) (List.replicate 53 (0 : ℚ)) with htotal
  have hlen : total.length = 53 := by
    rw [htotal, foldl_addInto_length]; simp
  rw [foldl_sq_sum, map_sum_eq_range, hlen, zero_add]
  refine Finset.sum_congr rfl (fun i hi => ?_)
  have hi53 : i < 53 := Finset.mem_range.mp hi
  have : total.getD i 0 = (es.map (fun e => e.2.getD i 0)).sum := by
    rw [htotal, foldl_addInto_getD i es (List.replicate 53 (0 : ℚ)) (by simpa using hi53),
      replicate_getD, zero_add]
  rw [this]

/-! ### C3 — row emission for zero-percentage allocations -/

set_option maxRecDepth 400000 in
/-- C3 counterexample. In Scenario B (year 2026, one project, budget 400,
one 100% phase, `roleA` allocated 0%) the generator emits exactly one
row for `roleA`: lines 351–352 track explicit allocations "even if 0%",
so the claim's "no row is emitted for roleA" fails. -/
theorem row_emission_c3_counterexample :
    ((generateSchedule [projScenB] cfgScenB).rows.filter
      (fun r => r.staffTypeId == "roleA")).length = 1 := by
  with_unfolding_all decide

/-- Auxiliary: membership in a flattened list. -/
theorem listFlat_mem {l : List α} {f : α → List β} {a : α} {b : β}
    (ha : a ∈ l) (hb : b ∈ f a) : b ∈ listFlat l f := by
  induction l with
  | nil => cases ha
  | cons x xs ih =>
    rcases List.mem_cons.mp ha with h | h
    · subst h
      exact List.mem_append.mpr (Or.inl hb)
    · exact List.mem_append.mpr (Or.inr (ih h))

/-- Auxiliary: a staff type listed in a project's `staffAllocation`
(at any percentage) always receives a split-1 row for that project. -/
theorem rowsForStaff_allocated (headers : List ℤ) (project : ProjectInput)
    (staff : StaffType) (ha : staff.id ∈ allocatedIdsOf project) :
    ∃ r ∈ rowsForStaff headers project staff,
      r.projectId = project.id ∧ r.staffTypeId = staff.id ∧ r.staffIndex = 1 := by
  have hns : 0 < numSplitsOf headers project staff := by
    unfold numSplitsOf
    rw [if_neg (fun h => h.2.2 ha)]
    have h1 : (1 : ℤ) ≤ max 1 (computeMaxOverrideIndex project.overrides.staff staff.id) :=
      le_max_left _ _
    omega
  refine ⟨mkRow headers project (phaseProfilesOf project) (weeklyPhasesOf headers project)
    staff (numSplitsOf headers project staff) 0, ?_, rfl, rfl, rfl⟩
  unfold rowsForStaff
  refine List.mem_filterMap.mpr ⟨0, List.mem_range.mpr hns, ?_⟩
  unfold emitRow?
  rw [if_pos (Or.inr (Or.inr ⟨ha, rfl⟩))]

/-- Auxiliary: writing a key makes it readable. -/
theorem lookupA_setA_self (k : String) (v : α) :
    ∀ l : List (String × α), lookupA (setA k v l) k = some v
  | [] => by simp [setA, lookupA, List.find?]
  | e :: es => by
    unfold setA
    split
    · simp [lookupA, List.find?]
    · unfold lookupA
      rw [List.find?_cons_of_neg _ (by assumption)]
      exact lookupA_setA_self k v es

/-- Auxiliary: writing one key leaves the others unchanged. -/
theorem lookupA_setA_ne (k' k : String) (v : α) (hne : k' ≠ k) :
    ∀ l : List (String × α), lookupA (setA k' v l) k = lookupA l k
  | [] => by
    have hkk : (k' == k) = false := beq_eq_false_iff_ne.mpr hne
    simp [setA, lookupA, List.find?, hkk]
  | e :: es => by
    unfold setA
    split
    next he =>
      have he1 : e.1 = k' := by simpa using he
      have h1 : List.find? (fun x => x.1 == k) ((k', v) :: es) =
          List.find? (fun x => x.1 == k) es :=
        List.find?_cons_of_neg _ (by simp [hne])
      have h2 : List.find? (fun x => x.1 == k) (e :: es) =
          List.find? (fun x => x.1 == k) es :=
        List.find?_cons_of_neg _ (by simp [he1, hne])
      unfold lookupA
      rw [h1, h2]
    next he =>
      by_cases hek : (e.1 == k) = true
      · have h1 : List.find? (fun x => x.1 == k) (e :: setA k' v es) = some e :=
          List.find?_cons_of_pos _ hek
        have h2 : List.find? (fun x => x.1 == k) (e :: es) = some e :=
          List.find?_cons_of_pos _ hek
        unfold lookupA
        rw [h1, h2]
      · have h1 : List.find? (fun x => x.1 == k) (e :: setA k' v es) =
            List.find? (fun x => x.1 == k) (setA k' v es) :=
          List.find?_cons_of_neg _ (by simpa using hek)
        have h2 : List.find? (fun x => x.1 == k) (e :: es) =
            List.find? (fun x => x.1 == k) es :=
          List.find?_cons_of_neg _ (by simpa using hek)
        unfold lookupA
        rw [h1, h2]
        exact lookupA_setA_ne k' k v hne es

/-- Auxiliary: a written key is readable. -/
theorem isSome_lookupA_setA_self (k : String) (v : α) (l : List (String × α)) :
    (lookupA (setA k v l) k).isSome := by
  rw [lookupA_setA_self]
  rfl

/-- Auxiliary: a write never removes a readable key. -/
theorem lookupA_isSome_setA (k' : String) (v : α) {l : List (String × α)} {k : String}
    (h : (lookupA l k).isSome) : (lookupA (setA k' v l) k).isSome := by
  by_cases hk : k' = k
  · subst hk
    rw [lookupA_setA_self]
    rfl
  · rw [lookupA_setA_ne k' k v hk]
    exact h

/-- Auxiliary: the phase-profile fold never removes a readable key. -/
theorem phaseProfilesFold_preserves (project : ProjectInput) :
    ∀ (phs : List PhaseConfig) (acc : List (String × List (String × ℚ))) (k : String),
      (lookupA acc k).isSome →
      (lookupA (phs.foldl (fun acc ph =>
        let totalPhaseHours := project.budgetHours * ph.percentBudget / 100
        let duration : ℚ := (max 1 ph.maxWeeks : ℤ)
        let weeklyPhaseHours := totalPhaseHours / duration
        setA ph.name
          (ph.staffAllocation.foldl (fun inner sa =>
            setA sa.staffTypeId (weeklyPhaseHours * sa.percentage / 100) inner) [])
          acc) acc) k).isSome
  | [], _, _, h => h
  | ph :: phs, acc, k, h => by
    rw [List.foldl_cons]
    exact phaseProfilesFold_preserves project phs _ k (lookupA_isSome_setA _ _ h)

/-- Auxiliary: every phase of the snapshot has a profile entry. -/
theorem phaseProfilesOf_mem (project : ProjectInput) :
    ∀ (phs : List PhaseConfig) (acc : List (String × List (String × ℚ)))
      (ph : PhaseConfig), ph ∈ phs →
      (lookupA (phs.foldl (fun acc ph =>
        let totalPhaseHours := project.budgetHours * ph.percentBudget / 100
        let duration : ℚ := (max 1 ph.maxWeeks : ℤ)
        let weeklyPhaseHours := totalPhaseHours / duration
        setA ph.name
          (ph.staffAllocation.foldl (fun inner sa =>
            setA sa.staffTypeId (weeklyPhaseHours * sa.percentage / 100) inner) [])
          acc) acc) ph.name).isSome
  | [], _, _, h => by cases h
  | ph0 :: phs, acc, ph, h => by
    rw [List.foldl_cons]
    rcases List.mem_cons.mp h with h1 | h1
    · subst h1
      exact phaseProfilesFold_preserves project phs _ _ (isSome_lookupA_setA_self _ _ _)
    · exact phaseProfilesOf_mem project phs _ ph h1

/-- Auxiliary: the names written by one phase walk satisfy any predicate
that holds of the phase name and of the accumulator's range. -/
theorem writeWeeks_range (headers : List ℤ) (name : String) (P : String → Prop)
    (hname : P name) :
    ∀ (n cursor : ℕ) (acc : ℤ → Option String),
      (∀ d pn, acc d = some pn → P pn) →
      ∀ d pn, (writeWeeks headers name n cursor acc).1 d = some pn → P pn
  | 0, _, _, hacc => hacc
  | n + 1, cursor, acc, hacc => by
    unfold writeWeeks
    refine writeWeeks_range headers name P hname n (cursor + 1) _ ?_
    cases hg : headers.get? cursor with
    | none => simpa [hg] using hacc
    | some d0 =>
      simp only [hg]
      intro d pn hd
      by_cases hdd : d = d0
      · rw [if_pos hdd] at hd
        cases hd
        exact hname
      · exact hacc d pn (by simpa [hdd] using hd)

/-- Auxiliary: names in the natural walk's range come from the walked
phases or the accumulator. -/
theorem walkAll_range (headers : List ℤ) (P : String → Prop) :
    ∀ (phs : List PhaseConfig) (cursor : ℕ) (acc : ℤ → Option String),
      (∀ ph ∈ phs, P ph.name) →
      (∀ d pn, acc d = some pn → P pn) →
      ∀ d pn, walkAll headers phs cursor acc d = some pn → P pn
  | [], _, _, _, hacc => hacc
  | ph :: phs, cursor, acc, hmem, hacc => by
    simp only [walkAll]
    exact walkAll_range headers P phs _ _
      (fun q hq => hmem q (List.mem_cons_of_mem _ hq))
      (writeWeeks_range headers ph.name P (hmem ph (List.mem_cons_self _ _)) _ _ _ hacc)

/-- Auxiliary: names in the overridden map's range come from the
on-timeline override entries or the accumulator. -/
theorem applyPhaseOverrides_range (headers : List ℤ) (P : String → Prop) :
    ∀ (entries : List (ℤ × String)) (acc : ℤ → Option String),
      (∀ e ∈ entries, e.1 ∈ headers → P e.2) →
      (∀ d pn, acc d = some pn → P pn) →
      ∀ d pn, applyPhaseOverrides headers entries acc d = some pn → P pn
  | [], _, _, hacc => hacc
  | e :: es, acc, hov, hacc => by
    unfold applyPhaseOverrides
    rw [List.foldl_cons]
    refine applyPhaseOverrides_range headers P es _
      (fun e' he' => hov e' (List.mem_cons_of_mem _ he')) ?_
    by_cases he : e.1 ∈ headers
    · rw [if_pos he]
      intro d pn hd
      by_cases hdd : d = e.1
      · rw [if_pos hdd] at hd
        cases hd
        exact hov e (List.mem_cons_self _ _) he
      · exact hacc d pn (by simpa [hdd] using hd)
    · rw [if_neg he]
      exact hacc

/-- Auxiliary: when every on-timeline phase override names a phase with
a profile entry, every effective phase of the timeline has a profile
entry — so the source's unguarded `phaseProfiles[phaseName][staff.id]`
read of line 436 never dereferences `undefined` and `generateSchedule`
completes without a TypeError on such inputs. -/
theorem weeklyPhasesOf_profiled (headers : List ℤ) (p : ProjectInput)
    (hov : ∀ e ∈ p.overrides.phase, e.1 ∈ headers →
      (lookupA (phaseProfilesOf p) e.2).isSome) :
    ∀ d pn, weeklyPhasesOf headers p d = some pn →
      (lookupA (phaseProfilesOf p) pn).isSome := by
  unfold weeklyPhasesOf
  exact applyPhaseOverrides_range headers _ _ _ hov
    (walkAll_range headers _ _ _ _
      (fun ph hph => phaseProfilesOf_mem p p.phasesConfig [] ph hph)
      (fun d pn h => by cases h))

/-- C3 amended. For inputs whose phase overrides only name phases that
have a profile entry in their project's snapshot (on other inputs the
source throws a TypeError at the unguarded `phaseProfiles` read of line
436 and emits nothing): every effective phase of the timeline is
profiled — so the generator completes — and a row is emitted for every
staff type that is explicitly listed in a project's `phasesConfig` staff
allocations, even at percentage 0 (the code tracks explicit allocations
regardless of percentage); in Scenario B, one zero-hour row is emitted
for `roleA` rather than none. -/
theorem row_emission_c3_amended (projects : List ProjectInput) (config : GlobalConfig)
    (p : ProjectInput) (staff : StaffType) (hp : p ∈ projects)
    (hs : staff ∈ config.staffTypes) (ha : staff.id ∈ allocatedIdsOf p)
    (hov : ∀ p' ∈ projects, ∀ e ∈ p'.overrides.phase, e.1 ∈ mkHeaders config.year →
      (lookupA (phaseProfilesOf p') e.2).isSome) :
    (∀ p' ∈ projects, ∀ d pn, weeklyPhasesOf (mkHeaders config.year) p' d = some pn →
      (lookupA (phaseProfilesOf p') pn).isSome) ∧
    ∃ r ∈ (generateSchedule projects config).rows,
      r.projectId = p.id ∧ r.staffTypeId = staff.id ∧ r.staffIndex = 1 := by
  refine ⟨fun p' hp' => weeklyPhasesOf_profiled _ p' (hov p' hp'), ?_⟩
  obtain ⟨r, hr, hprops⟩ := rowsForStaff_allocated (mkHeaders config.year) p staff ha
  exact ⟨r, listFlat_mem hp (listFlat_mem hs hr), hprops⟩

set_option maxRecDepth 400000 in
/-- Witness for C3 at Scenario B: `roleA` is allocated (at 0%), the
project has no phase overrides (so the proviso holds), and a split-1
row is emitted for it. -/
theorem row_emission_c3_witness :
    projScenB ∈ [projScenB] ∧
    (⟨"roleA", "Role A", "Auditor", 40, "General", []⟩ : StaffType) ∈ cfgScenB.staffTypes ∧
    "roleA" ∈ allocatedIdsOf projScenB ∧
    ((∀ p' ∈ [projScenB], ∀ d pn, weeklyPhasesOf (mkHeaders cfgScenB.year) p' d = some pn →
        (lookupA (phaseProfilesOf p') pn).isSome) ∧
      ∃ r ∈ (generateSchedule [projScenB] cfgScenB).rows,
        r.projectId = projScenB.id ∧ r.staffTypeId = "roleA" ∧ r.staffIndex = 1) :=
  ⟨by decide, by decide, by with_unfolding_all decide,
   row_emission_c3_amended [projScenB] cfgScenB projScenB
     ⟨"roleA", "Role A", "Auditor", 40, "General", []⟩
     (by decide) (by decide) (by with_unfolding_all decide)
     (by with_unfolding_all decide)⟩

/-! ### C7 — override precedence -/

set_option maxRecDepth 400000 in
/-- C7 failing input. An hour override of 8 exists for staff type
`role-7` (an id shaped like the ones `TeamMemberList.tsx` creates,
`role-${Date.now()}`) at split 2 on the timeline date 739628 (the second
Monday of 2026), yet `generateSchedule` emits no split-2 row at all:
the key parse `key.split('-')` reads the staff id as `role`, so
`maxOverrideIndex` stays 0 and the override is silently dropped,
contradicting the spec's override precedence. -/
theorem override_precedence_c7_bug :
    staffOverrideAt projHyphen "role-7-2" 739628 = some 8 ∧
    739628 ∈ mkHeaders cfgHyphen.year ∧
    computeMaxOverrideIndex projHyphen.overrides.staff "role-7" = 0 ∧
    ((generateSchedule [projHyphen] cfgHyphen).rows.filter
      (fun r => r.staffIndex == 2)).length = 0 := by
  with_unfolding_all decide

/-! ### C10 — totality under out-of-range start offsets -/

/-- Every row of a load table spans exactly the 53 weeks. -/
def LoadsLen (st : Loads) : Prop := ∀ e ∈ st, e.2.length = 53

/-- Auxiliary: `modifyIdx` preserves length. -/
theorem modifyIdx_length (f : α → α) (k : ℕ) (l : List α) :
    (modifyIdx f k l).length = l.length := by
  induction l generalizing k with
  | nil => cases k <;> rfl
  | cons x xs ih => cases k with
    | zero => rfl
    | succ j => simp [modifyIdx, ih j]

/-- Auxiliary: `setA` with a 53-week row preserves `LoadsLen`. -/
theorem setA_len {k : String} {v : List ℚ} (hv : v.length = 53) :
    ∀ {st : Loads}, LoadsLen st → LoadsLen (setA k v st)
  | [], _ => by
    intro e he
    simp only [setA, List.mem_singleton] at he
    simp [he, hv]
  | e0 :: es, h => by
    intro e he
    unfold setA at he
    split at he
    · rcases List.mem_cons.mp he with h1 | h1
      · simp [h1, hv]
      · exact h e (List.mem_cons_of_mem _ h1)
    · rcases List.mem_cons.mp he with h1 | h1
      · exact h e (h1 ▸ List.mem_cons_self _ _)
      · exact setA_len hv (fun x hx => h x (List.mem_cons_of_mem _ hx)) e h1

/-- Auxiliary: `ensureEntry` with a 53-week row preserves `LoadsLen`. -/
theorem ensureEntry_len {k : String} {v : List ℚ} (hv : v.length = 53)
    {st : Loads} (h : LoadsLen st) : LoadsLen (ensureEntry k v st) := by
  unfold ensureEntry
  split
  · exact h
  · intro e he
    rcases List.mem_append.mp he with h1 | h1
    · exact h e h1
    · simp only [List.mem_singleton] at h1
      simp [h1, hv]

/-- Auxiliary: `modEntry` with a length-preserving update preserves
`LoadsLen`. -/
theorem modEntry_len {k : String} {f : List ℚ → List ℚ}
    (hf : ∀ l, (f l).length = l.length) :
    ∀ {st : Loads}, LoadsLen st → LoadsLen (modEntry k f st)
  | [], _ => by intro e he; simp [modEntry] at he
  | e0 :: es, h => by
    intro e he
    unfold modEntry at he
    split at he
    · rcases List.mem_cons.mp he with h1 | h1
      · rw [h1]
        simpa [hf] using h e0 (List.mem_cons_self _ _)
      · exact h e (List.mem_cons_of_mem _ h1)
    · rcases List.mem_cons.mp he with h1 | h1
      · exact h e (h1 ▸ List.mem_cons_self _ _)
      · exact modEntry_len hf (fun x hx => h x (List.mem_cons_of_mem _ hx)) e h1

/-- Auxiliary: the inner week loop preserves `LoadsLen`. -/
theorem addWeeks53_len (id : String) (v : ℚ) : ∀ (n : ℕ) (weekIdx : ℤ) {st : Loads},
    LoadsLen st → LoadsLen (addWeeks53 id v n weekIdx st)
  | 0, _, _, h => h
  | n + 1, weekIdx, st, h => by
    unfold addWeeks53
    refine addWeeks53_len id v n (weekIdx + 1) ?_
    split
    · exact modEntry_len (fun l => modifyIdx_length _ _ l)
        (ensureEntry_len (by simp) h)
    · exact h

/-- Auxiliary: one allocation step preserves `LoadsLen`. -/
theorem aggAlloc_len (pt : ℚ) (dur cursor : ℤ) {st : Loads} (h : LoadsLen st)
    (sa : StaffPhaseConfig) : LoadsLen (aggAlloc pt dur cursor st sa) := by
  simp only [aggAlloc]
  split
  · exact h
  · exact addWeeks53_len _ _ _ _ h

/-- Auxiliary: the allocation fold of one phase preserves `LoadsLen`. -/
theorem aggAllocFold_len (pt : ℚ) (dur cursor : ℤ) :
    ∀ (sas : List StaffPhaseConfig) {st : Loads}, LoadsLen st →
      LoadsLen (sas.foldl (aggAlloc pt dur cursor) st)
  | [], _, h => h
  | sa :: sas, st, h => by
    rw [List.foldl_cons]
    exact aggAllocFold_len pt dur cursor sas (aggAlloc_len pt dur cursor h sa)

/-- Auxiliary: the phase walk preserves `LoadsLen`. -/
theorem aggPhases_len (b : ℚ) : ∀ (phs : List PhaseConfig) (cursor : ℤ) {st : Loads},
    LoadsLen st → LoadsLen (aggPhases b phs cursor st)
  | [], _, _, h => h
  | ph :: phs, cursor, st, h => by
    simp only [aggPhases]
    split
    · exact aggPhases_len b phs cursor h
    · exact aggPhases_len b phs _ (aggAllocFold_len _ _ _ _ h)

/-- Auxiliary: the initial table has 53-week rows. -/
theorem aggInit_len (sts : List StaffType) :
    ∀ {acc : Loads}, LoadsLen acc →
      LoadsLen (sts.foldl (fun acc st => setA st.id (List.replicate 53 (0 : ℚ)) acc) acc) := by
  induction sts with
  | nil => exact fun h => h
  | cons s sts ih =>
    intro acc h
    rw [List.foldl_cons]
    exact ih (setA_len (by simp) h)

/-- Auxiliary: the project fold preserves `LoadsLen`. -/
theorem aggProjects_len : ∀ (ps : List ProjectInput) {st : Loads}, LoadsLen st →
    LoadsLen (ps.foldl aggProject st)
  | [], _, h => h
  | p :: ps, st, h => by
    rw [List.foldl_cons]
    refine aggProjects_len ps ?_
    unfold aggProject
    exact aggPhases_len _ _ _ h

/-- Auxiliary: the whole aggregate keeps 53-week rows. -/
theorem calculateWeeklyAggregates_len (projects : List ProjectInput) (config : GlobalConfig) :
    LoadsLen (calculateWeeklyAggregates projects config) := by
  unfold calculateWeeklyAggregates
  exact aggProjects_len projects (aggInit_len config.staffTypes (fun e he => by cases he))

/-- Auxiliary: a fold whose step fixes the accumulator is the identity. -/
theorem foldl_fixed_of {f : β → α → β} {b : β} (h : ∀ a, f b a = b) :
    ∀ l : List α, List.foldl f b l = b
  | [] => rfl
  | a :: l => by rw [List.foldl_cons, h a, foldl_fixed_of h l]

/-- Auxiliary: week writes starting at or beyond week 53 do nothing. -/
theorem addWeeks53_oob (id : String) (v : ℚ) : ∀ (n : ℕ) (weekIdx : ℤ) (st : Loads),
    53 ≤ weekIdx → addWeeks53 id v n weekIdx st = st
  | 0, _, _, _ => rfl
  | n + 1, weekIdx, st, h => by
    unfold addWeeks53
    rw [if_neg (by omega)]
    exact addWeeks53_oob id v n (weekIdx + 1) st (by omega)

/-- Auxiliary: an allocation whose phase starts at or beyond week 53
contributes nothing. -/
theorem aggAlloc_oob (pt : ℚ) (dur cursor : ℤ) (st : Loads) (h : 53 ≤ cursor)
    (sa : StaffPhaseConfig) : aggAlloc pt dur cursor st sa = st := by
  simp only [aggAlloc]
  split
  · rfl
  · exact addWeeks53_oob _ _ _ _ _ h

/-- Auxiliary: a phase walk beginning at or beyond week 53 contributes
nothing (positive durations only move the cursor further right, and
non-positive durations do not move it at all). -/
theorem aggPhases_oob (b : ℚ) : ∀ (phs : List PhaseConfig) (cursor : ℤ) (st : Loads),
    53 ≤ cursor → aggPhases b phs cursor st = st
  | [], _, _, _ => rfl
  | ph :: phs, cursor, st, h => by
    simp only [aggPhases]
    split
    · exact aggPhases_oob b phs cursor st h
    · rw [foldl_fixed_of (aggAlloc_oob _ _ _ _ h)]
      exact aggPhases_oob b phs _ st (by omega)

/-- Auxiliary: the generator's phase map marks only timeline dates. -/
theorem writeWeeks_domain (headers : List ℤ) (name : String) :
    ∀ (n cursor : ℕ) (acc : ℤ → Option String),
      (∀ d, acc d ≠ none → d ∈ headers) →
      ∀ d, (writeWeeks headers name n cursor acc).1 d ≠ none → d ∈ headers
  | 0, _, _, hacc => hacc
  | n + 1, cursor, acc, hacc => by
    unfold writeWeeks
    refine writeWeeks_domain headers name n (cursor + 1) _ ?_
    cases hg : headers.get? cursor with
    | none => simpa [hg] using hacc
    | some d0 =>
      simp only [hg]
      intro d hd
      by_cases hdd : d = d0
      · exact hdd ▸ List.get?_mem hg
      · exact hacc d (by simpa [hdd] using hd)

/-- Auxiliary: the whole natural walk marks only timeline dates. -/
theorem walkAll_domain (headers : List ℤ) : ∀ (phs : List PhaseConfig) (cursor : ℕ)
    (acc : ℤ → Option String), (∀ d, acc d ≠ none → d ∈ headers) →
    ∀ d, walkAll headers phs cursor acc d ≠ none → d ∈ headers
  | [], _, _, hacc => hacc
  | ph :: phs, cursor, acc, hacc => by
    simp only [walkAll]
    exact walkAll_domain headers phs _ _ (writeWeeks_domain headers ph.name _ _ _ hacc)

/-- Auxiliary: phase overrides mark only timeline dates. -/
theorem applyPhaseOverrides_domain (headers : List ℤ) :
    ∀ (entries : List (ℤ × String)) (acc : ℤ → Option String),
      (∀ d, acc d ≠ none → d ∈ headers) →
      ∀ d, applyPhaseOverrides headers entries acc d ≠ none → d ∈ headers
  | [], _, hacc => hacc
  | e :: es, acc, hacc => by
    unfold applyPhaseOverrides
    rw [List.foldl_cons]
    refine applyPhaseOverrides_domain headers es _ ?_
    by_cases he : e.1 ∈ headers
    · rw [if_pos he]
      intro d hd
      by_cases hdd : d = e.1
      · exact hdd ▸ he
      · exact hacc d (by simpa [hdd] using hd)
    · rw [if_neg he]
      exact hacc

/-- C10. Totality under out-of-range start offsets: (i) every row of the
weekly aggregate spans exactly weeks `[0, 53)` for arbitrary (also
negative or huge) offsets; (ii) a project starting at or beyond week 53
is silently dropped by the aggregator; (iii) the generator's
phase-per-week map only ever marks dates on the generated timeline; and
(iv) the phase-walk start cursor is clamped into
`[0, headers.length - 1]`. -/
theorem totality_c10 (projects : List ProjectInput) (config : GlobalConfig)
    (p : ProjectInput) (ps : List ProjectInput) (proj : ProjectInput) :
    (∀ e ∈ calculateWeeklyAggregates projects config, e.2.length = 53) ∧
    (53 ≤ p.startWeekOffset →
      calculateWeeklyAggregates (p :: ps) config = calculateWeeklyAggregates ps config) ∧
    (∀ d : ℤ, weeklyPhasesOf (mkHeaders config.year) proj d ≠ none →
      d ∈ mkHeaders config.year) ∧
    (mkHeaders config.year ≠ [] →
      startCursorOf proj (mkHeaders config.year) ≤ (mkHeaders config.year).length - 1) := by
  refine ⟨calculateWeeklyAggregates_len projects config, ?_, ?_, ?_⟩
  · intro hoff
    unfold calculateWeeklyAggregates
    rw [List.foldl_cons]
    have : aggProject (config.staffTypes.foldl
        (fun acc st => setA st.id (List.replicate 53 (0 : ℚ)) acc) []) p =
        config.staffTypes.foldl (fun acc st => setA st.id (List.replicate 53 (0 : ℚ)) acc) [] := by
      unfold aggProject
      exact aggPhases_oob _ _ _ _ hoff
    rw [this]
  · unfold weeklyPhasesOf
    exact applyPhaseOverrides_domain _ _ _
      (walkAll_domain _ _ _ _ (fun d hd => absurd rfl hd))
  · intro hne
    have hlen : 0 < (mkHeaders config.year).length := List.length_pos.mpr hne
    unfold startCursorOf
    have h1 : min proj.startWeekOffset (((mkHeaders config.year).length : ℤ) - 1) ≤
        ((mkHeaders config.year).length : ℤ) - 1 := min_le_right _ _
    have h2 : max 0 (min proj.startWeekOffset (((mkHeaders config.year).length : ℤ) - 1)) ≤
        ((mkHeaders config.year).length : ℤ) - 1 := max_le (by omega) h1
    omega

set_option maxRecDepth 400000 in
/-- Witness for C10: a project with offset 100 (far beyond the window) is
dropped from the aggregate, the phase map of Scenario B marks only
timeline dates (checked at the first Monday), and its start cursor obeys
the clamp. -/
theorem totality_c10_witness :
    ((53 : ℤ) ≤ projFar.startWeekOffset ∧
      calculateWeeklyAggregates [projFar] cfgOne = calculateWeeklyAggregates [] cfgOne) ∧
    (mkHeaders cfgOne.year ≠ [] ∧
      startCursorOf projFar (mkHeaders cfgOne.year) ≤ (mkHeaders cfgOne.year).length - 1) :=
  ⟨⟨by decide, (totality_c10 [projFar] cfgOne projFar [] projFar).2.1 (by decide)⟩,
   ⟨by with_unfolding_all decide,
    (totality_c10 [projFar] cfgOne projFar [] projFar).2.2.2 (by with_unfolding_all decide)⟩⟩

/-! ### Optimizer loop lemmas (C4, C5, C9) -/

/-- Unfolding of one loop layer. -/
theorem optLoop_succ (step : ℕ → OptState → OptState) (n i : ℕ) (s : OptState) :
    optLoop step (n + 1) i s = optLoop step n (i + 1) (step i s) := rfl

/-- A state fixed by every step is fixed by the whole loop. -/
theorem optLoop_fixed {step : ℕ → OptState → OptState} {s : OptState}
    (h : ∀ i, step i s = s) : ∀ (n i : ℕ), optLoop step n i s = s
  | 0, _ => rfl
  | n + 1, i => by rw [optLoop_succ, h i, optLoop_fixed h n (i + 1)]

/-- A loop of 5000 iterations whose first step reaches a state that is
fixed from then on ends in that state. -/
theorem optLoop_from_one {step : ℕ → OptState → OptState} {s s1 : OptState}
    (h0 : step 0 s = s1) (h : ∀ i, step i s1 = s1) :
    optLoop step 5000 0 s = s1 := by
  show optLoop step (4999 + 1) 0 s = s1
  rw [optLoop_succ, h0]
  exact optLoop_fixed h 4999 1

/-- An invariant preserved by every step is preserved by the loop. -/
theorem optLoop_inv {Inv : OptState → Prop} {step : ℕ → OptState → OptState}
    (hstep : ∀ i s, Inv s → Inv (step i s)) :
    ∀ (n i : ℕ) {s : OptState}, Inv s → Inv (optLoop step n i s)
  | 0, _, _, h => h
  | n + 1, i, s, h => by
    rw [optLoop_succ]
    exact optLoop_inv hstep n (i + 1) (hstep i s h)

/-- Each iteration either keeps the state, or moves exactly one project
to a freshly drawn offset within `[0, maxStart]` and records the new
(strictly smaller) cost. -/
theorem optStep_cases (config : GlobalConfig) (cs : List ℤ) (ul : List ℕ) (r : ℕ × ℕ)
    (s : OptState) :
    optStep config cs ul r s = s ∨
    ∃ p, s.projects.get? (ul.getD (r.1 % ul.length) 0) = some p ∧
      optStep config cs ul r s =
        ⟨s.projects.set (ul.getD (r.1 % ul.length) 0)
          { p with startWeekOffset :=
              ((r.2 % ((cs.getD (ul.getD (r.1 % ul.length) 0) 0).toNat + 1) : ℕ) : ℤ) },
         getCost (s.projects.set (ul.getD (r.1 % ul.length) 0)
          { p with startWeekOffset :=
              ((r.2 % ((cs.getD (ul.getD (r.1 % ul.length) 0) 0).toNat + 1) : ℕ) : ℤ) }) config⟩ ∧
      getCost (s.projects.set (ul.getD (r.1 % ul.length) 0)
          { p with startWeekOffset :=
              ((r.2 % ((cs.getD (ul.getD (r.1 % ul.length) 0) 0).toNat + 1) : ℕ) : ℤ) }) config
        < s.bestCost := by
  cases hg : s.projects.get? (ul.getD (r.1 % ul.length) 0) with
  | none =>
    simp only [optStep, hg]
    exact Or.inl trivial
  | some p =>
    simp only [optStep, hg]
    by_cases heq : ((r.2 % ((cs.getD (ul.getD (r.1 % ul.length) 0) 0).toNat + 1) : ℕ) : ℤ)
        = p.startWeekOffset
    · rw [if_pos heq]
      exact Or.inl rfl
    · rw [if_neg heq]
      split
      · exact Or.inr ⟨p, rfl, rfl, by assumption⟩
      · exact Or.inl rfl

/-- Auxiliary: `getD` of a position known through `get?`. -/
theorem getD_of_get? : ∀ (l : List α) (n : ℕ) (a d : α), l.get? n = some a → l.getD n d = a
  | [], n, _, _, h => by cases n <;> simp [List.get?] at h
  | a0 :: l, 0, a, d, h => by
    simp only [List.get?] at h
    simp [List.getD]
    exact (Option.some_injective _ h).symm ▸ rfl
  | a0 :: l, n + 1, a, d, h => by
    simp only [List.get?] at h
    simpa [List.getD] using getD_of_get? l n a d h

/-- Auxiliary: a `some` result of `get?` is within bounds. -/
theorem get?_lt_length {l : List α} {n : ℕ} {a : α} (h : l.get? n = some a) :
    n < l.length := by
  by_contra hn
  rw [List.get?_eq_none.mpr (by omega)] at h
  cases h

/-- Auxiliary: the constraint table holds `max 0 (52 - duration)` at each
project's index. -/
theorem constraintsOf_getD {ps : List ProjectInput} {i : ℕ} {p : ProjectInput}
    (h : ps.get? i = some p) :
    (constraintsOf ps).getD i 0 = max 0 (52 - projDuration p) := by
  refine getD_of_get? _ _ _ _ ?_
  unfold constraintsOf
  rw [List.get?_map, h]
  rfl

/-- Auxiliary: every constraint entry read is non-negative. -/
theorem constraintsOf_nonneg (ps : List ProjectInput) (i : ℕ) :
    0 ≤ (constraintsOf ps).getD i 0 := by
  cases hg : (constraintsOf ps).get? i with
  | none =>
    rw [List.getD_eq_default]
    exact List.get?_eq_none.mp hg
  | some v =>
    rw [getD_of_get? _ _ _ _ hg]
    have hv : v ∈ constraintsOf ps := List.get?_mem hg
    unfold constraintsOf at hv
    rcases List.mem_map.mp hv with ⟨p, _, hp⟩
    rw [← hp]
    exact le_max_left _ _

/-- Per-index shape preservation through the optimizer: same length, and
each slot keeps the input's locked flag and phase snapshot. -/
def ShapeOk (ps : List ProjectInput) (s : OptState) : Prop :=
  s.projects.length = ps.length ∧
  ∀ i q, s.projects.get? i = some q → ∃ p, ps.get? i = some p ∧
    q.locked = p.locked ∧ q.phasesConfig = p.phasesConfig

/-- Auxiliary: one iteration preserves `ShapeOk`. -/
theorem optStep_shape (config : GlobalConfig) (cs : List ℤ) (ul : List ℕ) (r : ℕ × ℕ)
    {ps : List ProjectInput} {s : OptState} (h : ShapeOk ps s) :
    ShapeOk ps (optStep config cs ul r s) := by
  rcases optStep_cases config cs ul r s with hc | ⟨p, hp, hstep, _⟩
  · rwa [hc]
  · rw [hstep]
    refine ⟨by rw [List.length_set]; exact h.1, ?_⟩
    intro i q hq
    by_cases hi : ul.getD (r.1 % ul.length) 0 = i
    · subst hi
      rw [List.get?_set_eq_of_lt _ (get?_lt_length hp)] at hq
      obtain ⟨p0, hp0, hl, hph⟩ := h.2 _ p hp
      cases hq
      exact ⟨p0, hp0, hl, hph⟩
    · rw [List.get?_set_ne _ _ hi] at hq
      exact h.2 i q hq

/-- Auxiliary: one iteration preserves the cost bookkeeping: the stored
cost is the cost of the stored projects, and it never rises. -/
theorem optStep_cost (config : GlobalConfig) (cs : List ℤ) (ul : List ℕ) (r : ℕ × ℕ)
    {c0 : ℚ} {s : OptState} (h1 : s.bestCost = getCost s.projects config)
    (h2 : s.bestCost ≤ c0) :
    (optStep config cs ul r s).bestCost = getCost (optStep config cs ul r s).projects config ∧
    (optStep config cs ul r s).bestCost ≤ c0 := by
  rcases optStep_cases config cs ul r s with hc | ⟨p, hp, hstep, hlt⟩
  · rw [hc]
    exact ⟨h1, h2⟩
  · rw [hstep]
    exact ⟨rfl, le_trans (le_of_lt hlt) h2⟩

/-- Auxiliary: one iteration preserves the per-index offset bound for
unlocked projects (freshly drawn offsets land in `[0, maxStart]`). -/
theorem optStep_off (config : GlobalConfig) (cs : List ℤ) (ul : List ℕ) (r : ℕ × ℕ)
    (hcs : ∀ i, 0 ≤ cs.getD i 0) {s : OptState}
    (h : ∀ i q, s.projects.get? i = some q → q.locked = false →
      q.startWeekOffset ≤ cs.getD i 0) :
    ∀ i q, (optStep config cs ul r s).projects.get? i = some q → q.locked = false →
      q.startWeekOffset ≤ cs.getD i 0 := by
  rcases optStep_cases config cs ul r s with hc | ⟨p, hp, hstep, _⟩
  · rw [hc]
    exact h
  · rw [hstep]
    intro i q hq hlock
    by_cases hi : ul.getD (r.1 % ul.length) 0 = i
    · subst hi
      rw [List.get?_set_eq_of_lt _ (get?_lt_length hp)] at hq
      cases hq
      have hm : r.2 % ((cs.getD (ul.getD (r.1 % ul.length) 0) 0).toNat + 1)
          ≤ (cs.getD (ul.getD (r.1 % ul.length) 0) 0).toNat :=
        Nat.lt_succ_iff.mp (Nat.mod_lt _ (Nat.succ_pos _))
      have := hcs (ul.getD (r.1 % ul.length) 0)
      simp only
      omega
    · rw [List.get?_set_ne _ _ hi] at hq
      exact h i q hq hlock

/-- Auxiliary: the clamp pass is the identity when every unlocked project
already satisfies its constraint. -/
theorem clampGo_noop (cs : List ℤ) : ∀ (i0 : ℕ) (qs : List ProjectInput),
    (∀ j q, qs.get? j = some q → q.locked = false →
      q.startWeekOffset ≤ cs.getD (i0 + j) 0) →
    clampGo cs i0 qs = qs
  | _, [], _ => rfl
  | i0, q :: qs, h => by
    unfold clampGo
    have h0 : q.locked = false → q.startWeekOffset ≤ cs.getD i0 0 := by
      intro hl
      simpa using h 0 q rfl hl
    rw [if_neg (fun hc => absurd hc.2 (not_lt.mpr (h0 hc.1)))]
    rw [clampGo_noop cs (i0 + 1) qs ?_]
    intro j q' hq' hl
    have := h (j + 1) q' hq' hl
    have heq : i0 + (j + 1) = i0 + 1 + j := by omega
    rwa [heq] at this

/-- Auxiliary: pointwise description of the clamp pass. -/
theorem clampGo_get? (cs : List ℤ) : ∀ (i0 : ℕ) (qs : List ProjectInput) (j : ℕ),
    (clampGo cs i0 qs).get? j = (qs.get? j).map (fun q =>
      if q.locked = false ∧ cs.getD (i0 + j) 0 < q.startWeekOffset then
        { q with startWeekOffset := cs.getD (i0 + j) 0 } else q)
  | _, [], j => by cases j <;> rfl
  | i0, q :: qs, 0 => by
    simp [clampGo, List.get?]
  | i0, q :: qs, j + 1 => by
    simp only [clampGo, List.get?]
    rw [clampGo_get? cs (i0 + 1) qs j]
    have heq : i0 + 1 + j = i0 + (j + 1) := by omega
    rw [heq]

/-- Auxiliary: an empty `unlockedIndices` list means every project is
locked. -/
theorem unlockedGo_nil : ∀ (i : ℕ) (ps : List ProjectInput), unlockedGo i ps = [] →
    ∀ p ∈ ps, p.locked = true
  | _, [], _ => by intro p hp; cases hp
  | i, p :: ps, h => by
    unfold unlockedGo at h
    split at h
    · intro q hq
      rcases List.mem_cons.mp hq with h1 | h1
      · subst h1; assumption
      · exact unlockedGo_nil (i + 1) ps h q h1
    · cases h

/-! ### C4 — monotonic cost -/

/-- C4 amended. When every unlocked project starts within its feasible
range (`startWeekOffset ≤ max 0 (52 − totalDuration)`), the cost of the
optimizer's output never exceeds the cost of its input, for every random
sequence. (Without that precondition the final clamp pass can pull an
out-of-range project back into the window and increase the cost.) -/
theorem monotonic_cost_c4_amended (rand : ℕ → ℕ × ℕ) (ps : List ProjectInput)
    (config : GlobalConfig)
    (h : ∀ p ∈ ps, p.locked = false → p.startWeekOffset ≤ max 0 (52 - projDuration p)) :
    getCost (optimizeProjectTiming rand ps config) config ≤ getCost ps config := by
  unfold optimizeProjectTiming
  split
  next => exact le_refl _
  next =>
    have hstep : ∀ i s,
        ((fun s : OptState => (s.bestCost = getCost s.projects config ∧
            s.bestCost ≤ getCost ps config) ∧
          ∀ i q, s.projects.get? i = some q → q.locked = false →
            q.startWeekOffset ≤ (constraintsOf ps).getD i 0) s) →
        ((fun s : OptState => (s.bestCost = getCost s.projects config ∧
            s.bestCost ≤ getCost ps config) ∧
          ∀ i q, s.projects.get? i = some q → q.locked = false →
            q.startWeekOffset ≤ (constraintsOf ps).getD i 0)
          (optStep config (constraintsOf ps) (unlockedOf ps) (rand i) s)) := by
      intro i s hs
      exact ⟨optStep_cost config (constraintsOf ps) (unlockedOf ps) (rand i) hs.1.1 hs.1.2,
        optStep_off config (constraintsOf ps) (unlockedOf ps) (rand i)
          (constraintsOf_nonneg ps) hs.2⟩
    have h0 : ((initState ps config).bestCost =
          getCost (initState ps config).projects config ∧
        (initState ps config).bestCost ≤ getCost ps config) ∧
        ∀ i q, (initState ps config).projects.get? i = some q → q.locked = false →
          q.startWeekOffset ≤ (constraintsOf ps).getD i 0 := by
      refine ⟨⟨rfl, le_refl _⟩, ?_⟩
      intro i q hq hl
      have hq' : ps.get? i = some q := hq
      rw [constraintsOf_getD hq']
      exact h q (List.get?_mem hq') hl
    have hfin := optLoop_inv hstep 5000 0 h0
    rw [clampGo_noop (constraintsOf ps) 0 _ (fun j q hq hl => by
      simpa using hfin.2 j q hq hl)]
    rw [← hfin.1.1]
    exact hfin.1.2

set_option maxRecDepth 400000 in
/-- C4 counterexample. The project `projFar` (offset 100, all load
outside the window, initial cost 0) is never moved by the greedy loop
under the constant draw (0, 0) — every in-range candidate offset has
positive cost — but the final clamp pass pulls it to offset 51, whose
cost is strictly positive: the returned cost exceeds the input cost. -/
theorem monotonic_cost_c4_counterexample :
    ¬ (getCost (optimizeProjectTiming randZero [projFar] cfgOne) cfgOne ≤
        getCost [projFar] cfgOne) := by
  have hfix : ∀ i : ℕ, (fun (i : ℕ) (s : OptState) =>
        optStep cfgOne (constraintsOf [projFar]) (unlockedOf [projFar]) (randZero i) s) i
        (initState [projFar] cfgOne) = initState [projFar] cfgOne := by
    intro i
    show optStep cfgOne (constraintsOf [projFar]) (unlockedOf [projFar]) (0, 0)
        (initState [projFar] cfgOne) = initState [projFar] cfgOne
    with_unfolding_all decide
  have hloop := @optLoop_fixed _ _ hfix 5000 0
  unfold optimizeProjectTiming
  rw [if_neg (by with_unfolding_all decide : ¬ unlockedOf [projFar] = [])]
  rw [hloop]
  with_unfolding_all decide

/-! ### C5 — feasibility after optimization -/

/-- Auxiliary: the duration only depends on the phase snapshot. -/
theorem projDuration_congr {p q : ProjectInput} (h : p.phasesConfig = q.phasesConfig) :
    projDuration p = projDuration q := by
  unfold projDuration
  rw [h]

/-- C5 amended. For every input in which each unlocked project's total
duration is at most 53 weeks, every unlocked project returned by the
optimizer satisfies `startWeekOffset + totalDuration ≤ 53`, for every
random sequence. (A project of duration ≥ 54 is clamped to offset
`max 0 (52 − duration) = 0` and still ends past week 53.) -/
theorem feasibility_c5_amended (rand : ℕ → ℕ × ℕ) (ps : List ProjectInput)
    (config : GlobalConfig) (h : ∀ p ∈ ps, p.locked = false → projDuration p ≤ 53) :
    ∀ q ∈ optimizeProjectTiming rand ps config, q.locked = false →
      q.startWeekOffset + projDuration q ≤ 53 := by
  unfold optimizeProjectTiming
  split
  next hulock =>
    intro q hq hl
    have := unlockedGo_nil 0 ps hulock q hq
    rw [hl] at this
    cases this
  next =>
    intro q hq hl
    obtain ⟨j, hj⟩ := List.mem_iff_get?.mp hq
    rw [clampGo_get?] at hj
    obtain ⟨q0, hq0, hqc⟩ := Option.map_eq_some'.mp hj
    have hshape : ShapeOk ps (optLoop (fun i s => optStep config (constraintsOf ps)
        (unlockedOf ps) (rand i) s) 5000 0 (initState ps config)) := by
      refine optLoop_inv (fun i s hs =>
        optStep_shape config (constraintsOf ps) (unlockedOf ps) (rand i) hs) 5000 0 ?_
      exact ⟨rfl, fun i q hq => ⟨q, hq, rfl, rfl⟩⟩
    obtain ⟨p0, hp0, hlk, hph⟩ := hshape.2 j q0 hq0
    have hcs : (constraintsOf ps).getD (0 + j) 0 = max 0 (52 - projDuration p0) := by
      simpa using constraintsOf_getD hp0
    have hdur : projDuration q0 = projDuration p0 := projDuration_congr hph
    have hq0lk : q0.locked = false := by
      split at hqc
      · rw [← hqc] at hl
        exact hl
      · rw [← hqc] at hl
        exact hl
    have hp0lk : p0.locked = false := by rw [← hlk]; exact hq0lk
    have hd53 : projDuration p0 ≤ 53 := h p0 (List.get?_mem hp0) hp0lk
    have hoffq : q.startWeekOffset ≤ max 0 (52 - projDuration p0) := by
      split at hqc
      next hcond =>
        rw [← hqc]
        show (constraintsOf ps).getD (0 + j) 0 ≤ _
        rw [hcs]
      next hcond =>
        rw [← hqc]
        have hnlt : ¬ ((constraintsOf ps).getD (0 + j) 0 < q0.startWeekOffset) :=
          fun hlt => hcond ⟨hq0lk, hlt⟩
        rw [hcs] at hnlt
        omega
    have hdq : projDuration q = projDuration p0 := by
      split at hqc
      · rw [← hqc]
        exact (projDuration_congr rfl).trans hdur
      · rw [← hqc]
        exact hdur
    rcases max_choice (0 : ℤ) (52 - projDuration p0) with hc | hc <;>
      rw [hc] at hoffq <;> rw [hdq] <;> omega

set_option maxRecDepth 400000 in
/-- C5 counterexample. The unlocked project `projLong` has total duration
54; under the constant draw (0, 0) every iteration proposes its current
offset 0 and the loop is the identity, the clamp keeps offset 0, and the
returned project violates `startWeekOffset + totalDuration ≤ 53`
(0 + 54 = 54). -/
theorem feasibility_c5_counterexample :
    ¬ (∀ q ∈ optimizeProjectTiming randZero [projLong] cfgOne, q.locked = false →
        q.startWeekOffset + projDuration q ≤ 53) := by
  have hfix : ∀ i : ℕ, (fun (i : ℕ) (s : OptState) =>
        optStep cfgOne (constraintsOf [projLong]) (unlockedOf [projLong]) (randZero i) s) i
        (initState [projLong] cfgOne) = initState [projLong] cfgOne := by
    intro i
    show optStep cfgOne (constraintsOf [projLong]) (unlockedOf [projLong]) (0, 0)
        (initState [projLong] cfgOne) = initState [projLong] cfgOne
    with_unfolding_all decide
  have hloop := @optLoop_fixed _ _ hfix 5000 0
  unfold optimizeProjectTiming
  rw [if_neg (by with_unfolding_all decide : ¬ unlockedOf [projLong] = [])]
  rw [hloop]
  with_unfolding_all decide

set_option maxRecDepth 400000 in
/-- Witness for C4 at a well-formed two-project input. -/
theorem monotonic_cost_c4_witness :
    (∀ p ∈ projPair, p.locked = false → p.startWeekOffset ≤ max 0 (52 - projDuration p)) ∧
    getCost (optimizeProjectTiming randZero projPair cfgOne) cfgOne ≤
      getCost projPair cfgOne :=
  ⟨by with_unfolding_all decide,
   monotonic_cost_c4_amended randZero projPair cfgOne (by with_unfolding_all decide)⟩

set_option maxRecDepth 400000 in
/-- Witness for C5 at a well-formed two-project input. -/
theorem feasibility_c5_witness :
    (∀ p ∈ projPair, p.locked = false → projDuration p ≤ 53) ∧
    (∀ q ∈ optimizeProjectTiming randZero projPair cfgOne, q.locked = false →
      q.startWeekOffset + projDuration q ≤ 53) :=
  ⟨by with_unfolding_all decide,
   feasibility_c5_amended randZero projPair cfgOne (by with_unfolding_all decide)⟩

/-! ### C9 — determinism and idempotence of re-runs -/

set_option maxRecDepth 400000 in
/-- C9 counterexample. `optimizeProjectTiming` (and hence
`optimizeSchedule`) consults `Math.random`, which is not part of the
inputs: with the same `(projects, config)` but two different random
streams the two runs return different project lists. Under `randOne`,
`projClip` is moved to offset 1 in the first iteration (cost 832 < 848,
one loaded week slides past the window) and kept there; under `randZero`
it stays at offset 0. Re-running therefore does not always reproduce
identical output. -/
theorem determinism_c9_counterexample :
    optimizeSchedule randOne [projClip] cfgOne ≠ optimizeSchedule randZero [projClip] cfgOne := by
  have hassign : assignStaffToPlaceholders [projClip] cfgOne = ([projClip], []) := by
    with_unfolding_all decide
  have hfix0 : ∀ i : ℕ, (fun (i : ℕ) (s : OptState) =>
        optStep cfgOne (constraintsOf [projClip]) (unlockedOf [projClip]) (randZero i) s) i
        (initState [projClip] cfgOne) = initState [projClip] cfgOne := by
    intro i
    show optStep cfgOne (constraintsOf [projClip]) (unlockedOf [projClip]) (0, 0)
        (initState [projClip] cfgOne) = initState [projClip] cfgOne
    with_unfolding_all decide
  have hloop0 := @optLoop_fixed _ _ hfix0 5000 0
  have hstep1 : (fun (i : ℕ) (s : OptState) =>
        optStep cfgOne (constraintsOf [projClip]) (unlockedOf [projClip]) (randOne i) s) 0
        (initState [projClip] cfgOne) =
      ⟨[{ projClip with startWeekOffset := 1 }], 832⟩ := by
    show optStep cfgOne (constraintsOf [projClip]) (unlockedOf [projClip]) (0, 1)
        (initState [projClip] cfgOne) = _
    with_unfolding_all decide
  have hfix1 : ∀ i : ℕ, (fun (i : ℕ) (s : OptState) =>
        optStep cfgOne (constraintsOf [projClip]) (unlockedOf [projClip]) (randOne i) s) i
        (⟨[{ projClip with startWeekOffset := 1 }], 832⟩ : OptState) =
        ⟨[{ projClip with startWeekOffset := 1 }], 832⟩ := by
    intro i
    show optStep cfgOne (constraintsOf [projClip]) (unlockedOf [projClip]) (0, 1) _ = _
    with_unfolding_all decide
  have hloop1 := @optLoop_from_one
    (fun (i : ℕ) (s : OptState) =>
      optStep cfgOne (constraintsOf [projClip]) (unlockedOf [projClip]) (randOne i) s)
    (initState [projClip] cfgOne)
    (⟨[{ projClip with startWeekOffset := 1 }], 832⟩ : OptState) hstep1 hfix1
  unfold optimizeSchedule
  rw [hassign]
  unfold optimizeProjectTiming
  rw [if_neg (by with_unfolding_all decide : ¬ unlockedOf [projClip] = [])]
  rw [hloop0, hloop1]
  with_unfolding_all decide

/-- C9 amended. Every engine operation is deterministic in its explicit
inputs: `generateSchedule` and `assignStaffToPlaceholders` re-run on
identical `(projects, config)` reproduce identical output and warnings,
and `optimizeSchedule` reproduces identical output only when the random
stream is also identical — the stream is a genuine input, so two re-runs
with the same projects and config but different draws may differ. -/
theorem determinism_c9_amended (projects projects' : List ProjectInput)
    (config config' : GlobalConfig) (rand rand' : ℕ → ℕ × ℕ)
    (hp : projects = projects') (hc : config = config') (hr : rand = rand') :
    generateSchedule projects config = generateSchedule projects' config' ∧
    assignStaffToPlaceholders projects config = assignStaffToPlaceholders projects' config' ∧
    optimizeSchedule rand projects config = optimizeSchedule rand' projects' config' := by
  subst hp hc hr
  exact ⟨rfl, rfl, rfl⟩

set_option maxRecDepth 400000 in
/-- Witness for C9 at Scenario-B data and the constant random stream. -/
theorem determinism_c9_witness :
    generateSchedule [projScenB] cfgScenB = generateSchedule [projScenB] cfgScenB ∧
    assignStaffToPlaceholders [projScenB] cfgScenB =
      assignStaffToPlaceholders [projScenB] cfgScenB ∧
    optimizeSchedule randZero [projScenB] cfgScenB =
      optimizeSchedule randZero [projScenB] cfgScenB :=
  determinism_c9_amended [projScenB] [projScenB] cfgScenB cfgScenB randZero randZero
    rfl rfl rfl

/-! ### C6 — exclusivity of placeholder assignment -/

/-- All staffing-slot ids of a project, one per allocation slot. -/
def slotIds (p : ProjectInput) : List String :=
  listFlat p.phasesConfig (fun ph => ph.staffAllocation.map (·.staffTypeId))

/-- The assigner's exclusion set is exactly the non-placeholder slot
ids. -/
theorem assignedIds_eq (p : ProjectInput) :
    assignedIds p = (slotIds p).filter (fun x => x ≠ "placeholder") := rfl

/-- The exclusivity invariant: no concrete (non-placeholder) staff id
occupies two different staffing slots of the project. -/
def exclusiveOk (p : ProjectInput) : Prop :=
  ((slotIds p).filter (fun x => x ≠ "placeholder")).Nodup

instance (p : ProjectInput) : Decidable (exclusiveOk p) := by
  unfold exclusiveOk
  infer_instance

/-- Auxiliary: counting inside a filtered list, positive case. -/
theorem count_filter_eq (p : String → Bool) (a : String) (hp : p a = true) :
    ∀ l : List String, (l.filter p).count a = l.count a
  | [] => rfl
  | x :: l => by
    by_cases hx : p x = true
    · simp only [List.filter_cons, hx, if_true, List.count_cons,
        count_filter_eq p a hp l]
    · have hax : ¬ (x == a) = true := by
        intro hxa
        rw [eq_of_beq hxa] at hx
        exact hx hp
      simp only [List.filter_cons, hx, if_false, List.count_cons,
        count_filter_eq p a hp l, Bool.false_eq_true]
      simp [hax]

/-- Auxiliary: one modified element, counted through a flattening. -/
theorem count_listFlat_modifyIdx {β : Type} (g : β → List String) (f : β → β) (c : String)
    (hc : ∀ x, (g (f x)).count c ≤ (g x).count c + 1)
    (hne : ∀ x a, a ≠ c → (g (f x)).count a ≤ (g x).count a) :
    ∀ (l : List β) (k : ℕ),
      ((listFlat (modifyIdx f k l) g).count c ≤ (listFlat l g).count c + 1) ∧
      (∀ a, a ≠ c → (listFlat (modifyIdx f k l) g).count a ≤ (listFlat l g).count a)
  | [], k => by
    cases k <;> exact ⟨Nat.le_succ _, fun a _ => le_refl _⟩
  | x :: xs, 0 => by
    refine ⟨?_, ?_⟩
    · simp only [modifyIdx, listFlat, List.count_append]
      have := hc x
      omega
    · intro a ha
      simp only [modifyIdx, listFlat, List.count_append]
      have := hne x a ha
      omega
  | x :: xs, k + 1 => by
    obtain ⟨h1, h2⟩ := count_listFlat_modifyIdx g f c hc hne xs k
    refine ⟨?_, ?_⟩
    · simp only [modifyIdx, listFlat, List.count_append]
      omega
    · intro a ha
      simp only [modifyIdx, listFlat, List.count_append]
      have := h2 a ha
      omega

/-- Auxiliary: a map is a flattening by singletons. -/
theorem map_eq_listFlat {β : Type} (g : β → String) :
    ∀ l : List β, l.map g = listFlat l (fun a => [g a])
  | [] => rfl
  | x :: xs => by simp [listFlat, map_eq_listFlat g xs]

/-- Auxiliary: counts through binding one allocation slot. -/
theorem count_bindAlloc (c : String) (aI : ℕ) (sas : List StaffPhaseConfig) :
    (((modifyIdx (fun sa => { sa with staffTypeId := c }) aI sas).map (·.staffTypeId)).count c
      ≤ ((sas.map (·.staffTypeId)).count c) + 1) ∧
    (∀ a, a ≠ c →
      ((modifyIdx (fun sa => { sa with staffTypeId := c }) aI sas).map (·.staffTypeId)).count a
        ≤ ((sas.map (·.staffTypeId)).count a)) := by
  rw [map_eq_listFlat, map_eq_listFlat]
  refine count_listFlat_modifyIdx (fun sa => [sa.staffTypeId])
    (fun sa => { sa with staffTypeId := c }) c ?_ ?_ sas aI
  · intro x
    simp [List.count_cons]
  · intro x a ha
    simp [List.count_cons, List.count_nil, ha]

/-- Auxiliary: counts through binding one slot of one phase. -/
theorem count_slotIds_bindProject (c : String) (pI aI : ℕ) (q : ProjectInput) :
    ((slotIds (bindProject pI aI c q)).count c ≤ (slotIds q).count c + 1) ∧
    (∀ a, a ≠ c →
      (slotIds (bindProject pI aI c q)).count a ≤ (slotIds q).count a) := by
  refine count_listFlat_modifyIdx (fun ph => ph.staffAllocation.map (·.staffTypeId))
    (bindAlloc c aI) c ?_ ?_ q.phasesConfig pI
  · intro ph
    exact (count_bindAlloc c aI ph.staffAllocation).1
  · intro ph a ha
    exact (count_bindAlloc c aI ph.staffAllocation).2 a ha

/-- Auxiliary: binding a candidate that holds no role on the project yet
preserves the exclusivity invariant. -/
theorem exclusiveOk_bind {q : ProjectInput} {c : String} (hq : exclusiveOk q)
    (hcph : c ≠ "placeholder") (hnotin : c ∉ assignedIds q) (pI aI : ℕ) :
    exclusiveOk (bindProject pI aI c q) := by
  have hzero : (slotIds q).count c = 0 := by
    rw [List.count_eq_zero]
    intro hmem
    apply hnotin
    rw [assignedIds_eq]
    refine List.mem_filter.mpr ⟨hmem, ?_⟩
    simpa using hcph
  have hq' := List.nodup_iff_count_le_one.mp hq
  unfold exclusiveOk
  rw [List.nodup_iff_count_le_one]
  intro a
  by_cases hpa : (fun x => decide (x ≠ "placeholder")) a = true
  · rw [count_filter_eq _ a hpa]
    by_cases hac : a = c
    · subst hac
      have := (count_slotIds_bindProject a pI aI q).1
      omega
    · have h1 := (count_slotIds_bindProject c pI aI q).2 a hac
      have h2 := hq' a
      rw [count_filter_eq _ a hpa] at h2
      omega
  · have : a ∉ (slotIds (bindProject pI aI c q)).filter (fun x => x ≠ "placeholder") := by
      intro hmem
      exact hpa (List.mem_filter.mp hmem).2
    rw [List.count_eq_zero.mpr this]
    omega

/-- Auxiliary: mapping the first matching element — every member of the
result is an original member or the image of the element `find?`
returns. -/
theorem mapFirst_mem {pred : ProjectInput → Bool} {f : ProjectInput → ProjectInput}
    {q0 : ProjectInput} :
    ∀ {l : List ProjectInput}, l.find? pred = some q0 →
      ∀ p ∈ mapFirst pred f l, p ∈ l ∨ p = f q0
  | [], hf => by cases hf
  | x :: xs, hf => by
    intro p hp
    by_cases hx : pred x = true
    · rw [List.find?_cons_of_pos _ hx] at hf
      cases hf
      unfold mapFirst at hp
      rw [if_pos hx] at hp
      rcases List.mem_cons.mp hp with h1 | h1
      · exact Or.inr h1
      · exact Or.inl (List.mem_cons_of_mem _ h1)
    · rw [List.find?_cons_of_neg _ (by simpa using hx)] at hf
      unfold mapFirst at hp
      rw [if_neg (by simpa using hx)] at hp
      rcases List.mem_cons.mp hp with h1 | h1
      · exact Or.inl (h1 ▸ List.mem_cons_self _ _)
      · rcases mapFirst_mem hf p h1 with h2 | h2
        · exact Or.inl (List.mem_cons_of_mem _ h2)
        · exact Or.inr h2

/-- Auxiliary: the argmax fold yields the carried accumulator or a list
element. -/
theorem pickBest_fold_mem (score : StaffType → ℚ) :
    ∀ (l : List StaffType) (acc : Option (StaffType × ℚ)) (pr : StaffType × ℚ),
      l.foldl (fun best cand =>
        match best with
        | none => some (cand, score cand)
        | some (b, bs) => if bs < score cand then some (cand, score cand) else some (b, bs))
        acc = some pr →
      acc = some pr ∨ pr.1 ∈ l
  | [], acc, pr => fun h => Or.inl h
  | x :: xs, acc, pr => by
    intro h
    rw [List.foldl_cons] at h
    rcases pickBest_fold_mem score xs _ pr h with h1 | h1
    · cases acc with
      | none =>
        simp only at h1
        cases h1
        exact Or.inr (List.mem_cons_self _ _)
      | some bpair =>
        obtain ⟨b, bs⟩ := bpair
        simp only at h1
        split at h1
        · cases h1
          exact Or.inr (List.mem_cons_self _ _)
        · exact Or.inl h1
    · exact Or.inr (List.mem_cons_of_mem _ h1)

/-- Auxiliary: the chosen candidate comes from the candidate list. -/
theorem pickBest_mem {score : StaffType → ℚ} {l : List StaffType} {c : StaffType}
    (h : pickBest score l = some c) : c ∈ l := by
  unfold pickBest at h
  cases hfold : l.foldl (fun best cand =>
      match best with
      | none => some (cand, score cand)
      | some (b, bs) => if bs < score cand then some (cand, score cand) else some (b, bs))
      none with
  | none => rw [hfold] at h; cases h
  | some pr =>
    rw [hfold] at h
    simp only [Option.map_some'] at h
    rcases pickBest_fold_mem score l none pr hfold with h1 | h1
    · cases h1
    · exact (Option.some.inj h) ▸ h1

/-- Auxiliary: a member of a candidate set is a non-placeholder staff
type not yet assigned on the found project. -/
theorem candidatesOf_spec {config : GlobalConfig} {projs : List ProjectInput}
    {task : FillTask} {cand : StaffType} {q0 : ProjectInput}
    (hfind : projs.find? (fun p => p.id == task.projectId) = some q0)
    (hc : cand ∈ candidatesOf config projs task) :
    cand.id ≠ "placeholder" ∧ cand.id ∉ assignedIds q0 := by
  unfold candidatesOf at hc
  rw [hfind] at hc
  have := (List.mem_filter.mp hc).2
  simpa using this

/-- Auxiliary: one task-processing step preserves exclusivity of every
project. -/
theorem processTask_exclusive (config : GlobalConfig) (s : AState) (task : FillTask)
    (h : ∀ p ∈ s.projs, exclusiveOk p) :
    ∀ p ∈ (processTask config s task).projs, exclusiveOk p := by
  unfold processTask
  cases hpick : pickBest (scoreCand task s.loads) (candidatesOf config s.projs task) with
  | none => exact h
  | some cand =>
    unfold bindStep
    cases hfind : s.projs.find? (fun p => p.id == task.projectId) with
    | none => exact h
    | some q0 =>
      intro p hp
      simp only at hp
      rcases mapFirst_mem hfind p hp with h1 | h1
      · exact h p h1
      · rw [h1]
        obtain ⟨hph, hnotin⟩ := candidatesOf_spec hfind (pickBest_mem hpick)
        exact exclusiveOk_bind (h q0 (List.mem_of_find?_eq_some hfind)) hph hnotin _ _

/-- C6 amended. If no project of the input already violates exclusivity,
then no project of `assignStaffToPlaceholders`' output does: each
binding picks a candidate that holds no non-placeholder role on the
found project, so it never puts one concrete staff id into two slots of
the same project. (The unrestricted claim fails because a pre-existing
duplicate in the input is passed through untouched.) -/
theorem exclusivity_c6_amended (projects : List ProjectInput) (config : GlobalConfig)
    (h : ∀ p ∈ projects, exclusiveOk p) :
    ∀ q ∈ (assignStaffToPlaceholders projects config).1, exclusiveOk q := by
  unfold assignStaffToPlaceholders
  suffices hstep : ∀ (ts : List FillTask) (s : AState), (∀ p ∈ s.projs, exclusiveOk p) →
      ∀ q ∈ (ts.foldl (processTask config) s).projs, exclusiveOk q by
    exact hstep _ ⟨projects, calculateWeeklyAggregates projects config, []⟩ h
  intro ts
  induction ts with
  | nil => exact fun s hs => hs
  | cons t ts ih =>
    intro s hs
    rw [List.foldl_cons]
    exact ih _ (processTask_exclusive config s t hs)

set_option maxRecDepth 400000 in
/-- C6 counterexample. A project whose input staffing already lists the
concrete id `s` in two slots is returned unchanged (it contains no
placeholder), so the returned list violates the claimed invariant. -/
theorem exclusivity_c6_counterexample :
    ¬ (∀ q ∈ (assignStaffToPlaceholders [projDupIn] cfgOne).1, exclusiveOk q) := by
  with_unfolding_all decide

set_option maxRecDepth 400000 in
/-- Witness for C6 at Scenario C (two placeholder slots, one concrete
staff member already on the project). -/
theorem exclusivity_c6_witness :
    (∀ p ∈ [projScenC], exclusiveOk p) ∧
    (∀ q ∈ (assignStaffToPlaceholders [projScenC] cfgScenC).1, exclusiveOk q) :=
  ⟨by with_unfolding_all decide,
   exclusivity_c6_amended [projScenC] cfgScenC (by with_unfolding_all decide)⟩

/-! ### C8 — warnings iff unfillable, never an error -/

/-- The number of processed tasks whose candidate set is empty at their
processing time. -/
def countUnfillable (config : GlobalConfig) : AState → List FillTask → ℕ
  | _, [] => 0
  | s, t :: ts =>
    (if candidatesOf config s.projs t = [] then 1 else 0) +
      countUnfillable config (processTask config s t) ts

/-- The staffing slot a task addresses inside a project, if it exists
(`p.phasesConfig[task.phaseIndex].staffAllocation[task.allocIndex]`,
projected to its staff id). -/
def slotAt (p : ProjectInput) (pIdx aIdx : ℕ) : Option String :=
  (p.phasesConfig.get? pIdx).bind
    (fun ph => (ph.staffAllocation.get? aIdx).map (·.staffTypeId))

/-- Modelled from the source's unguarded slot write of line 190
(`p.phasesConfig[task.phaseIndex].staffAllocation[task.allocIndex].staffTypeId
= candId`): the write succeeds exactly when the task's indices address
an existing slot of the project found by its id (vacuously when no
project is found — the source then skips the write). When `find` returns
a project for which the indices are out of range — reachable when two
projects share an id and `find` returns a first project shorter than the
task's origin — the source throws a TypeError. -/
def bindInRange (projs : List ProjectInput) (task : FillTask) : Bool :=
  match projs.find? (fun p => p.id == task.projectId) with
  | some q => (slotAt q task.phaseIndex task.allocIndex).isSome
  | none => true

/-- The run-level no-throw condition of the assigner's task fold: at each
processed task, either the candidate set is empty (the source only
pushes a warning, lines 201–203) or the binding write is in range. On
inputs violating it the source throws mid-fold and returns nothing. -/
def runBindsInRange (config : GlobalConfig) : AState → List FillTask → Bool
  | _, [] => true
  | s, t :: ts =>
    ((candidatesOf config s.projs t).isEmpty || bindInRange s.projs t) &&
      runBindsInRange config (processTask config s t) ts

/-- Auxiliary: updating an index rewrites exactly that position. -/
theorem modifyIdx_get?_self (f : α → α) : ∀ (k : ℕ) (l : List α),
    (modifyIdx f k l).get? k = (l.get? k).map f
  | k, [] => by cases k <;> simp [modifyIdx]
  | 0, x :: xs => rfl
  | k + 1, x :: xs => by
    show (x :: modifyIdx f k xs).get? (k + 1) = ((x :: xs).get? (k + 1)).map f
    simp only [List.get?]
    exact modifyIdx_get?_self f k xs

/-- Auxiliary: the argmax fold never loses a carried value. -/
theorem pickBest_fold_isSome (score : StaffType → ℚ) :
    ∀ (l : List StaffType) (acc : Option (StaffType × ℚ)), acc.isSome →
      (l.foldl (fun best cand =>
        match best with
        | none => some (cand, score cand)
        | some (b, bs) => if bs < score cand then some (cand, score cand) else some (b, bs))
        acc).isSome
  | [], _, h => h
  | x :: xs, acc, h => by
    rw [List.foldl_cons]
    cases acc with
    | none => cases h
    | some bpair =>
      obtain ⟨b, bs⟩ := bpair
      refine pickBest_fold_isSome score xs _ ?_
      simp only
      split <;> rfl

/-- Auxiliary: a candidate is picked exactly when the candidate set is
non-empty. -/
theorem pickBest_eq_none_iff (score : StaffType → ℚ) (l : List StaffType) :
    pickBest score l = none ↔ l = [] := by
  constructor
  · intro h
    cases l with
    | nil => rfl
    | cons x xs =>
      exfalso
      unfold pickBest at h
      rw [List.foldl_cons] at h
      have := pickBest_fold_isSome score xs (some (x, score x)) rfl
      rw [Option.map_eq_none'] at h
      rw [h] at this
      cases this
  · intro h
    subst h
    rfl

/-- Auxiliary: the binding branch never touches the warnings. -/
theorem bindStep_warns (s : AState) (task : FillTask) (cand : StaffType) :
    (bindStep s task cand).warns = s.warns := by
  unfold bindStep
  cases hfind : s.projs.find? (fun p => p.id == task.projectId) <;> rfl

/-- Auxiliary: each processed task appends exactly one warning when its
candidate set is empty and none otherwise. -/
theorem processTask_warns (config : GlobalConfig) (s : AState) (task : FillTask) :
    (processTask config s task).warns = s.warns ++
      (if candidatesOf config s.projs task = [] then [fillWarning task] else []) := by
  unfold processTask
  cases hpick : pickBest (scoreCand task s.loads) (candidatesOf config s.projs task) with
  | none =>
    rw [if_pos ((pickBest_eq_none_iff _ _).mp hpick)]
  | some cand =>
    have hne : candidatesOf config s.projs task ≠ [] := by
      intro hnil
      rw [hnil] at hpick
      cases hpick
    rw [if_neg hne, List.append_nil]
    exact bindStep_warns s task cand

/-- Auxiliary: warning count accumulated over the whole task fold. -/
theorem foldl_warns_count (config : GlobalConfig) :
    ∀ (ts : List FillTask) (s : AState),
      (ts.foldl (processTask config) s).warns.length =
        s.warns.length + countUnfillable config s ts
  | [], s => by simp [countUnfillable]
  | t :: ts, s => by
    have hrec : countUnfillable config s (t :: ts) =
        (if candidatesOf config s.projs t = [] then 1 else 0) +
          countUnfillable config (processTask config s t) ts := rfl
    rw [List.foldl_cons, foldl_warns_count config ts (processTask config s t),
      processTask_warns, hrec, List.length_append]
    by_cases hc : candidatesOf config s.projs t = [] <;> simp [hc]
    omega

/-- C8 amended. The claim's "never throws" holds only under the in-range
proviso `bindInRange` (refuted in general by
`warnings_c8_counterexample`: with duplicate project ids the line-190
write can address a missing slot and throw a TypeError). Under it the
warning behaviour is exact: a task whose candidate set is empty appends
exactly one warning and leaves projects and loads untouched; a task with
candidates and an in-range binding binds one of them (via `bindStep`),
appends no warning, and the addressed slot of the found project actually
receives the candidate's id (the source's write lands instead of
throwing); and on runs whose every binding is in range, the warnings
returned by `assignStaffToPlaceholders` number exactly the unfillable
tasks. -/
theorem warnings_c8 (config : GlobalConfig) (s : AState) (task : FillTask)
    (projects : List ProjectInput) :
    (candidatesOf config s.projs task = [] →
      processTask config s task = ⟨s.projs, s.loads, s.warns ++ [fillWarning task]⟩) ∧
    (candidatesOf config s.projs task ≠ [] → bindInRange s.projs task = true →
      ∃ c ∈ candidatesOf config s.projs task, processTask config s task = bindStep s task c ∧
        ∀ q, s.projs.find? (fun p => p.id == task.projectId) = some q →
          slotAt (bindProject task.phaseIndex task.allocIndex c.id q)
            task.phaseIndex task.allocIndex = some c.id) ∧
    (runBindsInRange config ⟨projects, calculateWeeklyAggregates projects config, []⟩
        (sortTasks (collectTasks projects)) = true →
      (assignStaffToPlaceholders projects config).2.length =
        countUnfillable config ⟨projects, calculateWeeklyAggregates projects config, []⟩
          (sortTasks (collectTasks projects))) := by
  refine ⟨?_, ?_, ?_⟩
  · intro hempty
    unfold processTask
    rw [hempty]
    rfl
  · intro hne hin
    unfold processTask
    cases hpick : pickBest (scoreCand task s.loads) (candidatesOf config s.projs task) with
    | none => exact absurd ((pickBest_eq_none_iff _ _).mp hpick) hne
    | some cand =>
      refine ⟨cand, pickBest_mem hpick, rfl, ?_⟩
      intro q hq
      unfold bindInRange at hin
      simp only [hq] at hin
      obtain ⟨v, hv⟩ := Option.isSome_iff_exists.mp hin
      unfold slotAt at hv
      obtain ⟨ph, hph, hsa⟩ := Option.bind_eq_some.mp hv
      obtain ⟨sa, hsa1, _⟩ := Option.map_eq_some'.mp hsa
      show ((modifyIdx (bindAlloc cand.id task.allocIndex) task.phaseIndex
          q.phasesConfig).get? task.phaseIndex).bind
        (fun ph => (ph.staffAllocation.get? task.allocIndex).map (·.staffTypeId)) =
          some cand.id
      rw [modifyIdx_get?_self, hph]
      simp only [Option.map_some', Option.some_bind, bindAlloc]
      rw [modifyIdx_get?_self, hsa1]
      rfl
  · intro _
    unfold assignStaffToPlaceholders
    rw [foldl_warns_count]
    simp

/-- The first Scenario-C task (30% of the Fieldwork phase over 2 weeks,
16 hours/week after rounding). -/
def taskScenC : FillTask :=
  { projectId := "c", projectName := "C", phaseIndex := 0, allocIndex := 1,
    startWeek := 0, duration := 2, hoursPerWeek := 16, requiredSkills := [],
    team := "General" }

set_option maxRecDepth 400000 in
/-- Witness for C8 at Scenario C: the sole concrete staff member already
holds a role on the project, the candidate set is empty, and processing
the task appends exactly one warning while leaving the projects
untouched. -/
theorem warnings_c8_witness :
    candidatesOf cfgScenC [projScenC] taskScenC = [] ∧
    processTask cfgScenC
        ⟨[projScenC], calculateWeeklyAggregates [projScenC] cfgScenC, []⟩ taskScenC =
      ⟨[projScenC], calculateWeeklyAggregates [projScenC] cfgScenC, [fillWarning taskScenC]⟩ :=
  ⟨by with_unfolding_all decide,
   (warnings_c8 cfgScenC
     ⟨[projScenC], calculateWeeklyAggregates [projScenC] cfgScenC, []⟩ taskScenC []).1
     (by with_unfolding_all decide)⟩

/-- Two staff types; `s` is concretely staffed on the first duplicate-id
project, leaving `t` as a live candidate for the colliding task. -/
def cfgPair8 : GlobalConfig :=
  { year := 2026, phases := [],
    staffTypes := [⟨"s", "S", "Auditor", 40, "General", []⟩,
                   ⟨"t", "T", "Auditor", 40, "General", []⟩] }

/-- First project with id `x`: a single one-phase snapshot, no
placeholders. `find` by id returns this one. -/
def projShort8 : ProjectInput :=
  { id := "x", name := "X1", budgetHours := 40, startWeekOffset := 0,
    locked := false, team := "General", requiredSkills := [],
    phasesConfig := [⟨"Fieldwork", 100, 1, 1, [⟨"s", 100⟩]⟩],
    overrides := ⟨[], []⟩ }

/-- Second project with the same id `x`: its placeholder sits at phase
index 1, beyond the first project's single phase. -/
def projTwin8 : ProjectInput :=
  { id := "x", name := "X2", budgetHours := 100, startWeekOffset := 0,
    locked := false, team := "General", requiredSkills := [],
    phasesConfig := [⟨"Pre-Planning", 0, 1, 1, []⟩,
                     ⟨"Fieldwork", 100, 1, 2, [⟨"placeholder", 100⟩]⟩],
    overrides := ⟨[], []⟩ }

/-- The sole collected task of the duplicate-id input: the second
project's placeholder (100% of 100 budget hours over 2 weeks, rounded to
52 hours/week). -/
def taskTwin8 : FillTask :=
  { projectId := "x", projectName := "X2", phaseIndex := 1, allocIndex := 0,
    startWeek := 1, duration := 2, hoursPerWeek := 52, requiredSkills := [],
    team := "General" }

set_option maxRecDepth 400000 in
/-- C8 counterexample. Two projects share the id `x`. The only collected
placeholder task comes from the second project at phase index 1, but the
binder's `find` (line 187) returns the first project, whose snapshot has
a single phase: the candidate set is non-empty (staff `t`), so the
source executes the line-190 write
`p.phasesConfig[1].staffAllocation[0].staffTypeId = candId` with
`p.phasesConfig[1] = undefined` and throws a TypeError — refuting the
claim that `assignStaffToPlaceholders` never throws. (It is the only
task, so it is processed against the untouched initial project list.) -/
theorem warnings_c8_counterexample :
    sortTasks (collectTasks [projShort8, projTwin8]) = [taskTwin8] ∧
    candidatesOf cfgPair8 [projShort8, projTwin8] taskTwin8 ≠ [] ∧
    [projShort8, projTwin8].find? (fun p => p.id == taskTwin8.projectId) = some projShort8 ∧
    projShort8.phasesConfig.get? taskTwin8.phaseIndex = none ∧
    bindInRange [projShort8, projTwin8] taskTwin8 = false := by
  with_unfolding_all decide
